import Mathlib

/-!
Verification of the sudoku repository (src/sudoku.py) against its
natural-language specification.

The embedding is shallow: the grid is a total function on coordinates,
Python exceptions become the `Except` monad with one error type `Err`
(mirroring the exception classes GridStringError, ValueError and
VertexValueError), Python sets of digits become `Finset ℕ`, and the
in-place mutation performed by candidate_map and solve_puzzle becomes
explicit state passing (the mutated object is threaded through and
returned).  Loops become folds over the same index lists the source
iterates over, in the same order.
-/

/-- A cell of the grid: `none` is the Python `None` (unknown), `some v`
is an integer value.  The program only ever stores naturals. -/
abbrev Cell := Option ℕ

/-- The 9x9 grid, `self.grid` in the source, indexed as grid line row. -/
abbrev Grid := Fin 9 → Fin 9 → Cell

/-- Read `self.grid[l][r]` with plain natural indices; the program only
reads in-range indices, out-of-range reads return `none`. -/
def cellAt (g : Grid) (l r : ℕ) : Cell :=
  if h : l < 9 ∧ r < 9 then g ⟨l, h.1⟩ ⟨r, h.2⟩ else none

/-- Write `self.grid[l][r] = v`; writes at out-of-range indices are
dropped (the program never performs any). -/
def setCell (g : Grid) (l r : ℕ) (v : Cell) : Grid :=
  fun l' r' => if l'.val = l ∧ r'.val = r then v else g l' r'

/-- The all-unknown grid produced by `Sudoku.__init__` before any store. -/
def emptyGrid : Grid := fun _ _ => none

/-- The exception classes of the program: GridStringError and
VertexValueError from the source, plus the builtin ValueError that
`int()` raises on a non-digit character. -/
inductive Err
  | gridStringError
  | valueError
  | vertexValueError
deriving DecidableEq, Repr

/-- The 81 (line, row) coordinate pairs in line-major order, as iterated
by `[(ln, rw) for ln in range(9) for rw in range(9)]` (position k of the
string maps to pair (k / 9, k % 9)). -/
def cells81 : List (ℕ × ℕ) := (List.range 81).map fun k => (k / 9, k % 9)

/-- The first codepoint of each run of ten consecutive decimal-digit
characters (Unicode category Nd).  Every Nd character sits in exactly
one such run, at the offset given by its digit value. -/
def ndRunStarts : List ℕ :=
  [48, 1632, 1776, 1984, 2406, 2534, 2662, 2790, 2918, 3046, 3174, 3302,
   3430, 3558, 3664, 3792, 3872, 4160, 4240, 6112, 6160, 6470, 6608, 6784,
   6800, 6992, 7088, 7232, 7248, 42528, 43216, 43264, 43472, 43504, 43600,
   44016, 65296, 66720, 68912, 69734, 69872, 69942, 70096, 70384, 70736,
   70864, 71248, 71360, 71472, 71904, 72016, 72784, 73040, 73120, 92768,
   92864, 93008, 120782, 120792, 120802, 120812, 120822, 123200, 123632,
   125264, 130032]

/-- Python `int(c)` on a one-character string: a decimal digit of any
script (Unicode category Nd) converts to its digit value, anything else
raises ValueError. -/
def pyCharInt (c : Char) : Except Err ℕ :=
  match ndRunStarts.find? fun s =>
      decide (s ≤ c.toNat) && decide (c.toNat ≤ s + 9) with
  | some s => .ok (c.toNat - s)
  | none => .error .valueError

/-- A character the parsing loop of `Sudoku.__init__` accepts: the dot,
or a decimal digit of value 1 to 9. -/
def goodChar (ch : Char) : Bool :=
  ch == '.' ||
    (match pyCharInt ch with
     | .ok v => decide (1 ≤ v) && decide (v ≤ 9)
     | .error _ => false)

/-- The per-position body of the parsing loop of `Sudoku.__init__`:
a dot leaves the cell unknown, a digit in 1..9 is stored, a digit out of
that range raises GridStringError, and a non-digit raises ValueError
(from `int`). -/
def storeChars : List ((ℕ × ℕ) × Char) → Grid → Except Err Grid
  | [], g => .ok g
  | (p, ch) :: rest, g =>
    if ch = '.' then storeChars rest g
    else
      match pyCharInt ch with
      | .error e => .error e
      | .ok v =>
        if 1 ≤ v ∧ v ≤ 9 then storeChars rest (setCell g p.1 p.2 (some v))
        else .error .gridStringError

/-- `Sudoku.__init__(grid_string)`: the empty string yields the empty
grid, any other string of length other than 81 raises GridStringError,
otherwise the characters are stored position by position. -/
def sudokuOfString (s : List Char) : Except Err Grid :=
  if s = [] then .ok emptyGrid
  else if s.length ≠ 81 then .error .gridStringError
  else storeChars (cells81.zip s) emptyGrid

/-- A cell value acceptable to `verify_vertex_values`: None or 1..9. -/
def cellOK : Cell → Bool
  | none => true
  | some v => decide (1 ≤ v) && decide (v ≤ 9)

/-- `Sudoku.verify_vertex_values`: raises VertexValueError when some cell
holds a value outside {None} ∪ {1..9}. -/
def verifyVertexValues (g : Grid) : Except Err Unit :=
  if cells81.all fun p => cellOK (cellAt g p.1 p.2) then .ok ()
  else .error .vertexValueError

/-- The character emitted for one cell by `Sudoku.__str__`; values are
1..9 here because `verify_vertex_values` ran first, so `str(v)` is the
single ASCII digit of v. -/
def cellChar : Cell → Char
  | none => '.'
  | some v => Char.ofNat (48 + v)

/-- `Sudoku.__str__`: verify the vertex values, then emit one character
per cell in line-major order. -/
def strOfGrid (g : Grid) : Except Err (List Char) :=
  match verifyVertexValues g with
  | .error e => .error e
  | .ok _ => .ok (cells81.map fun p => cellChar (cellAt g p.1 p.2))

/-- The duplicate scan of `Sudoku.valid`: walk the cells of one unit
keeping the list of values seen; a resolved value already seen means a
duplicate.  Python returns False from the method at the first duplicate;
the scan of the remaining units is then irrelevant, so returning false
here and combining the unit results with `&&` is observably the same. -/
def seenScan : List ℕ → List Cell → Bool
  | _, [] => true
  | seen, none :: t => seenScan seen t
  | seen, some v :: t => if v ∈ seen then false else seenScan (v :: seen) t

/-- The cells of line l in row order, as read by the first loop of
`Sudoku.valid`. -/
def lineCells (g : Grid) (l : ℕ) : List Cell :=
  (List.range 9).map fun r => cellAt g l r

/-- The cells of row (column) r in line order, second loop of `valid`. -/
def colCells (g : Grid) (r : ℕ) : List Cell :=
  (List.range 9).map fun l => cellAt g l r

/-- The cells of box b: the source iterates subgrid pairs
(subgrid_line, subgrid_row) in a 3x3 loop and cell offsets (line, row)
in a 3x3 loop; box index b stands for the pair (b / 3, b % 3) and
offset index k for the pair (k / 3, k % 3), in the same order. -/
def boxCells (g : Grid) (b : ℕ) : List Cell :=
  (List.range 9).map fun k => cellAt g (3 * (b / 3) + k / 3) (3 * (b % 3) + k % 3)

/-- `Sudoku.valid`: verify vertex values, then scan the 9 lines, the 9
rows and the 9 boxes for a repeated resolved value. -/
def valid (g : Grid) : Except Err Bool :=
  match verifyVertexValues g with
  | .error e => .error e
  | .ok _ =>
    .ok ((((List.range 9).all fun l => seenScan [] (lineCells g l)) &&
          ((List.range 9).all fun r => seenScan [] (colCells g r))) &&
          ((List.range 9).all fun b => seenScan [] (boxCells g b)))

/-! ## Specification-level predicates

These state, independently of the scanning code, what the spec means by
well-formed, complete, extension, and a repeated digit in a unit. -/

/-- Two coordinates share a unit: same line, same row, or same box. -/
def SameUnit (p q : Fin 9 × Fin 9) : Prop :=
  p.1 = q.1 ∨ p.2 = q.2 ∨ (p.1.val / 3 = q.1.val / 3 ∧ p.2.val / 3 = q.2.val / 3)

instance (p q : Fin 9 × Fin 9) : Decidable (SameUnit p q) := by
  unfold SameUnit; infer_instance

/-- Some line, row or box of g holds two distinct resolved cells with
equal values. -/
def HasRepeat (g : Grid) : Prop :=
  ∃ p q : Fin 9 × Fin 9, p ≠ q ∧ SameUnit p q ∧
    ∃ v, g p.1 p.2 = some v ∧ g q.1 q.2 = some v

instance (g : Grid) : Decidable (HasRepeat g) := by
  unfold HasRepeat; infer_instance

/-- Every cell value of g is well-formed (None or a digit 1..9). -/
def WFgrid (g : Grid) : Prop := ∀ l r : Fin 9, cellOK (g l r) = true

instance (g : Grid) : Decidable (WFgrid g) := by
  unfold WFgrid; infer_instance

/-- Every cell of g is resolved to a digit 1..9 (no Unknown cells). -/
def CompleteDigits (g : Grid) : Prop :=
  ∀ l r : Fin 9, ∃ v, g l r = some v ∧ 1 ≤ v ∧ v ≤ 9

instance (g : Grid) : Decidable (CompleteDigits g) := by
  unfold CompleteDigits; infer_instance

/-- c agrees with g on every resolved cell of g. -/
def ExtendsG (g c : Grid) : Prop :=
  ∀ (l r : Fin 9) v, g l r = some v → c l r = some v

instance (g c : Grid) : Decidable (ExtendsG g c) := by
  unfold ExtendsG; infer_instance

/-! ## candidate_map

The candidate computation mutates two 9x9 structures, `candidates` (sets
of digits) and `vertex_value_unknown` (flags), while reading `self.grid`.
The state record carries all three; the grid field is read during the
initial elimination and never written (claim C10). -/

/-- The mutable state of `Sudoku.candidate_map`. -/
structure CState where
  grid : Grid
  cand : ℕ → ℕ → Finset ℕ
  unk : ℕ → ℕ → Bool

/-- Point update of a two-argument function. -/
def upd2 {α : Type} (f : ℕ → ℕ → α) (a b : ℕ) (v : α) : ℕ → ℕ → α :=
  fun x y => if x = a ∧ y = b then v else f x y

/-- `candidates[a][b].discard(n)`. -/
def disc (a b n : ℕ) (s : CState) : CState :=
  { s with cand := upd2 s.cand a b ((s.cand a b).erase n) }

/-- `candidates[a][b] = set([n]); vertex_value_unknown[a][b] = False`. -/
def coll (a b n : ℕ) (s : CState) : CState :=
  { s with cand := upd2 s.cand a b {n}, unk := upd2 s.unk a b false }

/-- The inner loop of the initial elimination (source lines 90-96): for
each i, discard v from cell (l, i) of the line (unless it is the cell
itself), from cell (i, r) of the row, and from the i-th cell of the box
of (l, r). -/
def phaseAInner (l r v : ℕ) (s : CState) : CState :=
  (List.range 9).foldl (fun t i =>
    let t1 := if i ≠ r then disc l i v t else t
    let t2 := if i ≠ l then disc i r v t1 else t1
    if l - l % 3 + i / 3 ≠ l ∨ r - r % 3 + i % 3 ≠ r then
      disc (l - l % 3 + i / 3) (r - r % 3 + i % 3) v t2
    else t2) s

/-- One cell of the initial elimination: when the grid value is a digit
1..9, collapse the candidate set of the cell to that digit, clear its
unknown flag, and discard the digit from the peers. -/
def phaseAStep (s : CState) (p : ℕ × ℕ) : CState :=
  match cellAt s.grid p.1 p.2 with
  | some v =>
    if 1 ≤ v ∧ v ≤ 9 then phaseAInner p.1 p.2 v (coll p.1 p.2 v s) else s
  | none => s

/-- The state before any elimination: every candidate set is {1..9},
every unknown flag is True. -/
def initState (g : Grid) : CState :=
  { grid := g, cand := fun _ _ => Finset.Icc 1 9, unk := fun _ _ => true }

/-- The initial elimination pass over all 81 cells in line-major order
(source lines 84-96). -/
def phaseA (g : Grid) : CState := cells81.foldl phaseAStep (initState g)

/-- After a hidden single collapsed cell (i, j0) of line i to {n}
(source lines 112-117): discard n from the rest of row j0 and from the
cells of the box of (i, j0) whose line differs from i. -/
def hsDiscardsLine (i j0 n : ℕ) (s : CState) : CState :=
  (List.range 9).foldl (fun t j =>
    let t1 := if j ≠ i then disc j j0 n t else t
    if i - i % 3 + j / 3 ≠ i then
      disc (i - i % 3 + j / 3) (j0 - j0 % 3 + j % 3) n t1
    else t1) s

/-- Locked candidates found in line i, confined to box sq (source lines
123-127): discard n from the cells of box sq whose line differs from i. -/
def lockedLine (i sq n : ℕ) (s : CState) : CState :=
  (List.range 9).foldl (fun t j =>
    if 3 * (sq / 3) + j / 3 ≠ i then
      disc (3 * (sq / 3) + j / 3) (3 * (sq % 3) + j % 3) n t
    else t) s

/-- First rule block (source lines 104-127), hosted by line i: a hidden
single for n in line i collapses its one possible cell, a 2-3 element
locked set confined to one box prunes that box.  The single subsquare
popped from the size-1 set equals the subsquare of any seen position. -/
def block1 (n i : ℕ) (s : CState) : CState :=
  let seen := (List.range 9).filter fun j => decide (n ∈ s.cand i j)
  if seen.length = 1 ∧ s.unk i (seen.headD 0) = true then
    hsDiscardsLine i (seen.headD 0) n (coll i (seen.headD 0) n s)
  else if 1 < seen.length ∧ seen.length < 4 then
    if ((seen.map fun j => 3 * (i / 3) + j / 3).toFinset).card = 1 then
      lockedLine i (3 * (i / 3) + (seen.headD 0) / 3) n s
    else s
  else s

/-- After a hidden single collapsed cell (j0, i) of row i to {n}
(source lines 136-141): discard n from the rest of line j0 and from the
cells of the box of (j0, i) whose row differs from i. -/
def hsDiscardsCol (i j0 n : ℕ) (s : CState) : CState :=
  (List.range 9).foldl (fun t j =>
    let t1 := if j ≠ i then disc j0 j n t else t
    if i - i % 3 + j % 3 ≠ i then
      disc (j0 - j0 % 3 + j / 3) (i - i % 3 + j % 3) n t1
    else t1) s

/-- Locked candidates found in row i, confined to box sq (source lines
147-151): discard n from the cells of box sq whose row differs from i. -/
def lockedCol (i sq n : ℕ) (s : CState) : CState :=
  (List.range 9).foldl (fun t j =>
    if 3 * (sq % 3) + j % 3 ≠ i then
      disc (3 * (sq / 3) + j / 3) (3 * (sq % 3) + j % 3) n t
    else t) s

/-- Second rule block (source lines 128-151), hosted by row i. -/
def block2 (n i : ℕ) (s : CState) : CState :=
  let seen := (List.range 9).filter fun j => decide (n ∈ s.cand j i)
  if seen.length = 1 ∧ s.unk (seen.headD 0) i = true then
    hsDiscardsCol i (seen.headD 0) n (coll (seen.headD 0) i n s)
  else if 1 < seen.length ∧ seen.length < 4 then
    if ((seen.map fun j => 3 * (j / 3) + i / 3).toFinset).card = 1 then
      lockedCol i (3 * ((seen.headD 0) / 3) + i / 3) n s
    else s
  else s

/-- After a hidden single collapsed box cell (3(i/3)+j0/3, 3(i%3)+j0%3)
of box i to {n} (source lines 160-165): discard n from the rest of its
line outside the box rows and from the rest of its row outside the box
lines. -/
def hsDiscardsBox (i j0 n : ℕ) (s : CState) : CState :=
  (List.range 9).foldl (fun t j =>
    let t1 :=
      if j ∉ [3 * (i % 3), 3 * (i % 3) + 1, 3 * (i % 3) + 2] then
        disc (3 * (i / 3) + j0 / 3) j n t
      else t
    if j ∉ [3 * (i / 3), 3 * (i / 3) + 1, 3 * (i / 3) + 2] then
      disc j (3 * (i % 3) + j0 % 3) n t1
    else t1) s

/-- Locked candidates of box i confined to one line L (source lines
173-176): discard n from the cells of line L outside the box rows. -/
def lockedBoxLine (i L n : ℕ) (s : CState) : CState :=
  ((List.range 9).filter fun rw =>
      decide (rw ∉ [3 * (i % 3), 3 * (i % 3) + 1, 3 * (i % 3) + 2])).foldl
    (fun t rw => disc L rw n t) s

/-- Locked candidates of box i confined to one row R (source lines
177-180): discard n from the cells of row R outside the box lines. -/
def lockedBoxCol (i R n : ℕ) (s : CState) : CState :=
  ((List.range 9).filter fun ln =>
      decide (ln ∉ [3 * (i / 3), 3 * (i / 3) + 1, 3 * (i / 3) + 2])).foldl
    (fun t ln => disc ln R n t) s

/-- Third rule block (source lines 152-180), hosted by box i; position j
of the box is the cell (3(i/3)+j/3, 3(i%3)+j%3). -/
def block3 (n i : ℕ) (s : CState) : CState :=
  let seen := (List.range 9).filter fun j =>
    decide (n ∈ s.cand (3 * (i / 3) + j / 3) (3 * (i % 3) + j % 3))
  if seen.length = 1 ∧
      s.unk (3 * (i / 3) + (seen.headD 0) / 3) (3 * (i % 3) + (seen.headD 0) % 3) = true then
    hsDiscardsBox i (seen.headD 0) n
      (coll (3 * (i / 3) + (seen.headD 0) / 3) (3 * (i % 3) + (seen.headD 0) % 3) n s)
  else if 1 < seen.length ∧ seen.length < 4 then
    if ((seen.map fun j => 3 * (i / 3) + j / 3).toFinset).card = 1 then
      lockedBoxLine i (3 * (i / 3) + (seen.headD 0) / 3) n s
    else if ((seen.map fun j => 3 * (i % 3) + j % 3).toFinset).card = 1 then
      lockedBoxCol i (3 * (i % 3) + (seen.headD 0) % 3) n s
    else s
  else s

/-- The three blocks for one digit and one unit index, in source order. -/
def passUnit (n i : ℕ) (s : CState) : CState := block3 n i (block2 n i (block1 n i s))

/-- One full pass of the reduction loop body: every digit 1..9, every
unit index 0..8 (source lines 102-180). -/
def passAll (s : CState) : CState :=
  (List.range' 1 9).foldl (fun t n => (List.range 9).foldl (fun u i => passUnit n i u) t) s

/-- `sum([len(candidates[ln][rw]) for ln in range(9) for rw in range(9)])`. -/
def totalCount (s : CState) : ℕ :=
  (cells81.map fun p => (s.cand p.1 p.2).card).sum

/-- The `while reduce_cadidate_map_further` loop (source lines 98-182):
remember the total candidate count, run one pass, and continue only when
the count strictly decreased.  The Python loop is unbounded; the model
carries fuel, and fuel 730 is enough because the count starts at most
729 and strictly decreases on every continued iteration (claim C8). -/
def reduceLoop : ℕ → CState → CState
  | 0, s => s
  | fuel + 1, s =>
    if totalCount (passAll s) < totalCount s then reduceLoop fuel (passAll s)
    else passAll s

/-- `Sudoku.candidate_map`: initial elimination, then the reduction loop. -/
def candidateMapS (g : Grid) : CState := reduceLoop 730 (phaseA g)

/-! ## solve_puzzle -/

/-- `min([9] + [len(candidates[ln][rw]) ... if grid is None])`. -/
def minCandSize (g : Grid) (cand : ℕ → ℕ → Finset ℕ) : ℕ :=
  (cells81.filterMap fun p =>
    if cellAt g p.1 p.2 = none then some (cand p.1 p.2).card else none).foldl min 9

/-- The guess loop of `solve_puzzle` (source lines 242-245): for each
guess in ascending order (CPython iterates a set of the digits 1..9 in
ascending order), assign the guess to the chosen cell of the current
grid, solve recursively, and append the solutions found; the recursive
call receives the threaded grid object and returns it. -/
def guessLoop (f : Grid → Except Err (List Grid × Grid)) (l r : ℕ) :
    List ℕ → List Grid → Grid → Except Err (List Grid × Grid)
  | [], sols, g => .ok (sols, g)
  | v :: vs, sols, g =>
    match f (setCell g l r (some v)) with
    | .error e => .error e
    | .ok (s2, g2) => guessLoop f l r vs (sols ++ s2) g2

/-- `solve_puzzle(grid)`, with the mutated grid threaded and returned:
return no solutions when the grid is invalid; otherwise compute the
candidate map, find the first empty cell of minimal candidate count in
line-major order, branch over its candidates and afterwards restore the
cell to None; when no empty cell exists, record a copy of the grid
(`Sudoku(grid.__str__())`) as the one solution.  The recursion depth is
bounded by the number of empty cells, so fuel 82 suffices for any grid. -/
def solveStep (rec : Grid → Except Err (List Grid × Grid)) (g : Grid) :
    Except Err (List Grid × Grid) :=
  match valid g with
    | .error e => .error e
    | .ok false => .ok ([], g)
    | .ok true =>
      match cells81.find? fun p =>
          (cellAt g p.1 p.2).isNone &&
          (((candidateMapS g).cand p.1 p.2).card ==
            minCandSize g (candidateMapS g).cand) with
      | some p =>
        match guessLoop rec p.1 p.2
            (((candidateMapS g).cand p.1 p.2).sort (· ≤ ·)) [] g with
        | .error e => .error e
        | .ok (sols, g2) => .ok (sols, setCell g2 p.1 p.2 none)
      | none =>
        match strOfGrid g with
        | .error e => .error e
        | .ok sChars =>
          match sudokuOfString sChars with
          | .error e => .error e
          | .ok gcopy => .ok ([gcopy], g)

def solveAux : ℕ → Grid → Except Err (List Grid × Grid)
  | 0, g => .ok ([], g)
  | fuel + 1, g => solveStep (solveAux fuel) g

/-- The list of solutions of `solve_puzzle(grid)`. -/
def solvePuzzle (g : Grid) : Except Err (List Grid) := (solveAux 82 g).map Prod.fst

/-- Number of unresolved cells: the measure that bounds the recursion
depth of the solver. -/
def emptyCount (g : Grid) : ℕ :=
  (Finset.univ.filter fun q : Fin 9 × Fin 9 => g q.1 q.2 = none).card

/-- The solutions contributed by one guess: the first component of the
recursive call on the grid with the guess written into cell (l, r). -/
def solsOf (f : Grid → Except Err (List Grid × Grid)) (g : Grid) (l r v : ℕ) :
    List Grid :=
  match f (setCell g l r (some v)) with
  | .ok out => out.1
  | .error _ => []

/-! ## Parsing and serialization -/

/-- The cell a single accepted character parses to. -/
def charCellV (ch : Char) : Cell :=
  if ch = '.' then none else some (ch.toNat - 48)

instance exceptDecEq {ε α : Type} [DecidableEq ε] [DecidableEq α] :
    DecidableEq (Except ε α) := fun a b =>
  match a, b with
  | .error e, .error f =>
    if h : e = f then isTrue (h ▸ rfl)
    else isFalse (fun hc => h (Except.error.inj hc))
  | .ok x, .ok y =>
    if h : x = y then isTrue (h ▸ rfl)
    else isFalse (fun hc => h (Except.ok.inj hc))
  | .error _, .ok _ => isFalse (fun hc => Except.noConfusion hc)
  | .ok _, .error _ => isFalse (fun hc => Except.noConfusion hc)

/-- The line-major character list `Sudoku.__str__` emits for g. -/
def serChars (g : Grid) : List Char :=
  cells81.map fun p => cellChar (cellAt g p.1 p.2)

/-! ## The candidate sets stay inside 1..9 -/

/-- Every candidate set is a set of digits 1..9. -/
def SubIcc (s : CState) : Prop := ∀ x y : ℕ, s.cand x y ⊆ Finset.Icc 1 9

/-! ## Peer elimination (claim C9): a digit resolved in the grid never
remains a candidate of a cell sharing its line, row or box -/

/-- The resolved value of cell p has been discarded from every peer of
p in the candidate state. -/
def ElimAt (g : Grid) (s : CState) (p : Fin 9 × Fin 9) : Prop :=
  ∀ v : ℕ, g p.1 p.2 = some v → ∀ q : Fin 9 × Fin 9, SameUnit p q → q ≠ p →
    v ∉ s.cand q.1.val q.2.val

def PeerElim (g : Grid) (s : CState) : Prop := ∀ p, ElimAt g s p

/-- The cell values of completion c all remain candidates. -/
def CandInv (c : Grid) (s : CState) : Prop :=
  ∀ (l r : Fin 9) (v : ℕ), c l r = some v → v ∈ s.cand l.val r.val

/-! ## Concrete grids for instantiating the claims -/

/-- A complete repeat-free grid: the standard shifted-pattern solution. -/
def patGrid : Grid := fun l r => some ((3 * (l.val % 3) + l.val / 3 + r.val) % 9 + 1)

/-- A grid with two 5s in line 0: invalid. -/
def badGrid : Grid := setCell (setCell emptyGrid 0 0 (some 5)) 0 1 (some 5)

/-- A grid with a single resolved cell. -/
def oneGrid : Grid := setCell emptyGrid 0 0 (some 5)

/-- The grid every cell of which holds 5: what 81 copies of an Arabic-
Indic digit five parse to. -/
def fivesGrid : Grid := fun _ _ => some 5

/-! ## Basic facts about coordinates and cell access -/

theorem mem_cells81 {p : ℕ × ℕ} : p ∈ cells81 ↔ p.1 < 9 ∧ p.2 < 9 := by
  unfold cells81
  simp only [List.mem_map, List.mem_range]
  constructor
  · rintro ⟨k, hk, rfl⟩
    exact ⟨by omega, Nat.mod_lt _ (by omega)⟩
  · rintro ⟨h1, h2⟩
    exact ⟨9 * p.1 + p.2, by omega, by
      obtain ⟨a, b⟩ := p
      simp only [Prod.mk.injEq]
      omega⟩

theorem cells81_nodup : cells81.Nodup := by
  unfold cells81
  refine List.Nodup.map_on ?_ (List.nodup_range 81)
  intro x hx y hy hxy
  simp only [List.mem_range] at hx hy
  have h1 : x / 9 = y / 9 ∧ x % 9 = y % 9 := by
    simpa [Prod.ext_iff] using hxy
  omega

theorem cellAt_lt {g : Grid} {l r : ℕ} (h1 : l < 9) (h2 : r < 9) :
    cellAt g l r = g ⟨l, h1⟩ ⟨r, h2⟩ := by
  unfold cellAt
  rw [dif_pos ⟨h1, h2⟩]

theorem cellAt_fin (g : Grid) (l r : Fin 9) :
    cellAt g l.val r.val = g l r := by
  rw [cellAt_lt l.isLt r.isLt]

theorem cellAt_setCell_same {g : Grid} {l r : ℕ} (h1 : l < 9) (h2 : r < 9) (v : Cell) :
    cellAt (setCell g l r v) l r = v := by
  rw [cellAt_lt h1 h2]
  simp [setCell]

theorem cellAt_setCell_other {g : Grid} {l r l' r' : ℕ} (h : ¬(l' = l ∧ r' = r)) (v : Cell) :
    cellAt (setCell g l r v) l' r' = cellAt g l' r' := by
  unfold cellAt setCell
  by_cases h9 : l' < 9 ∧ r' < 9
  · rw [dif_pos h9, dif_pos h9, if_neg h]
  · rw [dif_neg h9, dif_neg h9]

theorem setCell_setCell (g : Grid) (l r : ℕ) (v w : Cell) :
    setCell (setCell g l r v) l r w = setCell g l r w := by
  funext l' r'
  unfold setCell
  by_cases h : l'.val = l ∧ r'.val = r <;> simp [h]

theorem setCell_none_of_none {g : Grid} {l r : ℕ} (h : cellAt g l r = none)
    (h1 : l < 9) (h2 : r < 9) : setCell g l r none = g := by
  funext l' r'
  unfold setCell
  by_cases hc : l'.val = l ∧ r'.val = r
  · rw [if_pos hc]
    rw [cellAt_lt h1 h2] at h
    have : l' = ⟨l, h1⟩ := Fin.ext hc.1
    have : r' = ⟨r, h2⟩ := Fin.ext hc.2
    subst_vars
    exact h.symm
  · rw [if_neg hc]

/-- Folding a step function that preserves P preserves P. -/
theorem foldl_preserve {α β : Type} {P : α → Prop} {f : α → β → α}
    (h : ∀ a b, P a → P (f a b)) :
    ∀ (l : List β) (a : α), P a → P (l.foldl f a)
  | [], _, ha => ha
  | b :: t, a, ha => foldl_preserve h t (f a b) (h a b ha)

/-- If some element of the list establishes P and every step preserves
P, the fold establishes P. -/
theorem foldl_establish {α β : Type} {P : α → Prop} {f : α → β → α}
    (hpres : ∀ a b, P a → P (f a b)) {l : List β} {b : β} (hb : b ∈ l)
    (hest : ∀ a, P (f a b)) : ∀ a : α, P (l.foldl f a) := by
  intro a
  obtain ⟨l1, l2, rfl⟩ := List.append_of_mem hb
  rw [List.foldl_append]
  exact foldl_preserve hpres l2 _ (hest _)

/-! ## verify_vertex_values and valid versus the spec predicates -/

theorem all_cells_iff {g : Grid} :
    (cells81.all fun p => cellOK (cellAt g p.1 p.2)) = true ↔ WFgrid g := by
  rw [List.all_eq_true]
  unfold WFgrid
  constructor
  · intro hall l r
    have := hall (l.val, r.val) (mem_cells81.2 ⟨l.isLt, r.isLt⟩)
    rwa [cellAt_fin] at this
  · intro h p hp
    obtain ⟨h1, h2⟩ := mem_cells81.1 hp
    rw [cellAt_lt h1 h2]
    exact h _ _

theorem verify_ok_iff {g : Grid} : verifyVertexValues g = .ok () ↔ WFgrid g := by
  unfold verifyVertexValues
  by_cases h : (cells81.all fun p => cellOK (cellAt g p.1 p.2)) = true
  · simp only [if_pos h, true_iff]
    exact all_cells_iff.1 h
  · simp only [if_neg h]
    constructor
    · intro hc
      exact absurd hc (by simp)
    · intro hwf
      exact absurd (all_cells_iff.2 hwf) h

theorem verify_error_iff {g : Grid} :
    verifyVertexValues g = .error .vertexValueError ↔ ¬ WFgrid g := by
  unfold verifyVertexValues
  by_cases h : (cells81.all fun p => cellOK (cellAt g p.1 p.2)) = true
  · simp only [if_pos h]
    constructor
    · intro hc
      exact absurd hc (by simp)
    · intro hwf
      exact absurd (all_cells_iff.1 h) hwf
  · simp only [if_neg h, true_iff]
    exact fun hwf => absurd (all_cells_iff.2 hwf) h

/-! ## The duplicate scan versus the repeat predicate -/

theorem seenScan_true_iff : ∀ (l : List Cell) (seen : List ℕ),
    seenScan seen l = true ↔
      (l.Pairwise (fun a b => ∀ v : ℕ, a = some v → b ≠ some v) ∧
        ∀ v : ℕ, some v ∈ l → v ∉ seen) := by
  intro l
  induction l with
  | nil => intro seen; simp [seenScan]
  | cons c t ih =>
    intro seen
    match c with
    | none =>
      show seenScan seen t = true ↔ _
      rw [ih]
      constructor
      · rintro ⟨hp, hs⟩
        refine ⟨List.Pairwise.cons (fun a _ v hv => absurd hv (by simp)) hp, ?_⟩
        intro v hv
        rcases List.mem_cons.1 hv with h | h
        · exact absurd h (by simp)
        · exact hs v h
      · rintro ⟨hp, hs⟩
        exact ⟨(List.pairwise_cons.1 hp).2, fun v hv => hs v (List.mem_cons_of_mem _ hv)⟩
    | some v =>
      show (if v ∈ seen then false else seenScan (v :: seen) t) = true ↔ _
      by_cases hv : v ∈ seen
      · rw [if_pos hv]
        constructor
        · intro h; exact absurd h (by simp)
        · rintro ⟨_, hs⟩
          exact absurd hv (hs v (List.mem_cons_self _ _))
      · rw [if_neg hv, ih]
        constructor
        · rintro ⟨hp, hs⟩
          refine ⟨List.Pairwise.cons ?_ hp, ?_⟩
          · intro a ha w hw haw
            have hwv : w = v := by
              have := hw.symm
              simpa using this
            subst hwv
            exact (hs w (haw ▸ ha)) (List.mem_cons_self _ _)
          · intro w hw
            rcases List.mem_cons.1 hw with h | h
            · have hwv : w = v := by simpa using h
              subst hwv
              exact hv
            · intro hws
              exact (hs w h) (List.mem_cons_of_mem _ hws)
        · rintro ⟨hp, hs⟩
          obtain ⟨hhead, hpt⟩ := List.pairwise_cons.1 hp
          refine ⟨hpt, ?_⟩
          intro w hw hws
          rcases List.mem_cons.1 hws with h | h
          · subst h
            exact hhead (some w) hw w rfl rfl
          · exact (hs w (List.mem_cons_of_mem _ hw)) h

/-- The scan of one unit, presented through the cell reader of the unit:
no repeated resolved value among the 9 positions. -/
theorem seenScan_unit_iff (f : ℕ → Cell) :
    seenScan [] ((List.range 9).map f) = true ↔
      ∀ i j : ℕ, i < 9 → j < 9 → i ≠ j →
        ∀ v : ℕ, f i = some v → f j = some v → False := by
  rw [seenScan_true_iff]
  have hlen : (List.range 9).length = 9 := List.length_range 9
  constructor
  · rintro ⟨hp, -⟩
    rw [List.pairwise_map, List.pairwise_iff_get] at hp
    intro i j hi hj hij v hfi hfj
    rcases Nat.lt_or_ge i j with hlt | hge
    · exact hp ⟨i, by omega⟩ ⟨j, by omega⟩ (by simpa using hlt) v
        (by rwa [List.get_range]) (by rw [List.get_range]; exact hfj)
    · have hlt : j < i := by omega
      exact hp ⟨j, by omega⟩ ⟨i, by omega⟩ (by simpa using hlt) v
        (by rwa [List.get_range]) (by rw [List.get_range]; exact hfi)
  · intro h
    refine ⟨?_, by simp⟩
    rw [List.pairwise_map, List.pairwise_iff_get]
    rintro ⟨i, hi⟩ ⟨j, hj⟩ hij v hfi hfj
    rw [List.get_range] at hfi hfj
    simp only [Fin.mk_lt_mk] at hij
    exact h i j (by omega) (by omega) (by omega) v hfi hfj

/-- HasRepeat decomposed along the three scan dimensions of `valid`,
each phrased exactly as the corresponding scan reads cells. -/
theorem hasRepeat_decompose {g : Grid} :
    HasRepeat g ↔
      (∃ l i j : ℕ, l < 9 ∧ i < 9 ∧ j < 9 ∧ i ≠ j ∧
        ∃ v : ℕ, cellAt g l i = some v ∧ cellAt g l j = some v) ∨
      (∃ r i j : ℕ, r < 9 ∧ i < 9 ∧ j < 9 ∧ i ≠ j ∧
        ∃ v : ℕ, cellAt g i r = some v ∧ cellAt g j r = some v) ∨
      (∃ b i j : ℕ, b < 9 ∧ i < 9 ∧ j < 9 ∧ i ≠ j ∧
        ∃ v : ℕ, cellAt g (3 * (b / 3) + i / 3) (3 * (b % 3) + i % 3) = some v ∧
          cellAt g (3 * (b / 3) + j / 3) (3 * (b % 3) + j % 3) = some v) := by
  constructor
  · rintro ⟨p, q, hpq, hsu, v, hp, hq⟩
    rcases hsu with h1 | h2 | h3
    · refine Or.inl ⟨p.1.val, p.2.val, q.2.val, p.1.isLt, p.2.isLt, q.2.isLt, ?_, v, ?_, ?_⟩
      · intro hc
        exact hpq (Prod.ext h1 (Fin.ext hc))
      · rwa [cellAt_fin]
      · rw [h1, cellAt_fin]
        exact hq
    · refine Or.inr (Or.inl ⟨p.2.val, p.1.val, q.1.val, p.2.isLt, p.1.isLt, q.1.isLt, ?_, v, ?_, ?_⟩)
      · intro hc
        exact hpq (Prod.ext (Fin.ext hc) h2)
      · rwa [cellAt_fin]
      · rw [h2, cellAt_fin]
        exact hq
    · obtain ⟨hl3, hr3⟩ := h3
      have hlp := p.1.isLt
      have hrp := p.2.isLt
      have hlq := q.1.isLt
      have hrq := q.2.isLt
      refine Or.inr (Or.inr ⟨3 * (p.1.val / 3) + p.2.val / 3,
        3 * (p.1.val % 3) + p.2.val % 3, 3 * (q.1.val % 3) + q.2.val % 3,
        by omega, by omega, by omega, ?_, v, ?_, ?_⟩)
      · intro hc
        apply hpq
        have e1 : p.1.val = q.1.val := by omega
        have e2 : p.2.val = q.2.val := by omega
        exact Prod.ext (Fin.ext e1) (Fin.ext e2)
      · have e1 : 3 * ((3 * (p.1.val / 3) + p.2.val / 3) / 3) +
            (3 * (p.1.val % 3) + p.2.val % 3) / 3 = p.1.val := by omega
        have e2 : 3 * ((3 * (p.1.val / 3) + p.2.val / 3) % 3) +
            (3 * (p.1.val % 3) + p.2.val % 3) % 3 = p.2.val := by omega
        rw [e1, e2, cellAt_fin]
        exact hp
      · have e1 : 3 * ((3 * (p.1.val / 3) + p.2.val / 3) / 3) +
            (3 * (q.1.val % 3) + q.2.val % 3) / 3 = q.1.val := by omega
        have e2 : 3 * ((3 * (p.1.val / 3) + p.2.val / 3) % 3) +
            (3 * (q.1.val % 3) + q.2.val % 3) % 3 = q.2.val := by omega
        rw [e1, e2, cellAt_fin]
        exact hq
  · rintro (⟨l, i, j, hl, hi, hj, hij, v, h1, h2⟩ |
      ⟨r, i, j, hr, hi, hj, hij, v, h1, h2⟩ |
      ⟨b, i, j, hb, hi, hj, hij, v, h1, h2⟩)
    · refine ⟨(⟨l, hl⟩, ⟨i, hi⟩), (⟨l, hl⟩, ⟨j, hj⟩), ?_, Or.inl rfl, v, ?_, ?_⟩
      · intro hc
        exact hij (congrArg (fun p => (Prod.snd p).val) hc)
      · rwa [cellAt_lt hl hi] at h1
      · rwa [cellAt_lt hl hj] at h2
    · refine ⟨(⟨i, hi⟩, ⟨r, hr⟩), (⟨j, hj⟩, ⟨r, hr⟩), ?_, Or.inr (Or.inl rfl), v, ?_, ?_⟩
      · intro hc
        exact hij (congrArg (fun p => (Prod.fst p).val) hc)
      · rwa [cellAt_lt hi hr] at h1
      · rwa [cellAt_lt hj hr] at h2
    · have hbl1 : 3 * (b / 3) + i / 3 < 9 := by omega
      have hbr1 : 3 * (b % 3) + i % 3 < 9 := by omega
      have hbl2 : 3 * (b / 3) + j / 3 < 9 := by omega
      have hbr2 : 3 * (b % 3) + j % 3 < 9 := by omega
      refine ⟨(⟨_, hbl1⟩, ⟨_, hbr1⟩), (⟨_, hbl2⟩, ⟨_, hbr2⟩), ?_, ?_, v, ?_, ?_⟩
      · intro hc
        have e1 : 3 * (b / 3) + i / 3 = 3 * (b / 3) + j / 3 :=
          congrArg (fun p => (Prod.fst p).val) hc
        have e2 : 3 * (b % 3) + i % 3 = 3 * (b % 3) + j % 3 :=
          congrArg (fun p => (Prod.snd p).val) hc
        omega
      · refine Or.inr (Or.inr ⟨?_, ?_⟩) <;> simp only [] <;> omega
      · rwa [cellAt_lt hbl1 hbr1] at h1
      · rwa [cellAt_lt hbl2 hbr2] at h2

/-- With well-formed cell values, `valid` returns ok of the no-repeat
decision. -/
theorem valid_eq_decide {g : Grid} (hwf : WFgrid g) :
    valid g = .ok (decide (¬ HasRepeat g)) := by
  unfold valid
  rw [verify_ok_iff.2 hwf]
  by_cases hrep : HasRepeat g
  · simp only [hrep, decide_not, decide_True, Bool.not_true]
    rcases hasRepeat_decompose.1 hrep with ⟨l, i, j, hl, hi, hj, hij, v, h1, h2⟩ |
      ⟨r, i, j, hr, hi, hj, hij, v, h1, h2⟩ | ⟨b, i, j, hb, hi, hj, hij, v, h1, h2⟩
    · have : ¬ ((List.range 9).all fun l => seenScan [] (lineCells g l)) = true := by
        rw [List.all_eq_true]
        intro hall
        have := (seenScan_unit_iff (fun r => cellAt g l r)).1
          (hall l (List.mem_range.2 hl))
        exact this i j hi hj hij v h1 h2
      simp [Bool.eq_false_iff.2 this]
    · have : ¬ ((List.range 9).all fun r => seenScan [] (colCells g r)) = true := by
        rw [List.all_eq_true]
        intro hall
        have := (seenScan_unit_iff (fun l => cellAt g l r)).1
          (hall r (List.mem_range.2 hr))
        exact this i j hi hj hij v h1 h2
      simp [Bool.eq_false_iff.2 this]
    · have : ¬ ((List.range 9).all fun b => seenScan [] (boxCells g b)) = true := by
        rw [List.all_eq_true]
        intro hall
        have := (seenScan_unit_iff
          (fun k => cellAt g (3 * (b / 3) + k / 3) (3 * (b % 3) + k % 3))).1
          (hall b (List.mem_range.2 hb))
        exact this i j hi hj hij v h1 h2
      simp [Bool.eq_false_iff.2 this]
  · simp only [hrep, decide_not, decide_False, Bool.not_false]
    rw [hasRepeat_decompose] at hrep
    push_neg at hrep
    obtain ⟨hnl, hnc, hnb⟩ := hrep
    have e1 : ((List.range 9).all fun l => seenScan [] (lineCells g l)) = true := by
      rw [List.all_eq_true]
      intro l hlm
      exact (seenScan_unit_iff (fun r => cellAt g l r)).2
        (fun i j hi hj hij v h1 h2 =>
          hnl l i j (List.mem_range.1 hlm) hi hj hij v h1 h2)
    have e2 : ((List.range 9).all fun r => seenScan [] (colCells g r)) = true := by
      rw [List.all_eq_true]
      intro r hrm
      exact (seenScan_unit_iff (fun l => cellAt g l r)).2
        (fun i j hi hj hij v h1 h2 =>
          hnc r i j (List.mem_range.1 hrm) hi hj hij v h1 h2)
    have e3 : ((List.range 9).all fun b => seenScan [] (boxCells g b)) = true := by
      rw [List.all_eq_true]
      intro b hbm
      exact (seenScan_unit_iff
        (fun k => cellAt g (3 * (b / 3) + k / 3) (3 * (b % 3) + k % 3))).2
        (fun i j hi hj hij v h1 h2 =>
          hnb b i j (List.mem_range.1 hbm) hi hj hij v h1 h2)
    rw [e1, e2, e3]
    rfl

theorem valid_error_iff {g : Grid} :
    (∃ e, valid g = .error e) ↔ ¬ WFgrid g := by
  constructor
  · rintro ⟨e, he⟩ hwf
    rw [valid_eq_decide hwf] at he
    exact absurd he (by simp)
  · intro h
    refine ⟨.vertexValueError, ?_⟩
    unfold valid
    rw [verify_error_iff.2 h]

theorem valid_ok_true_iff {g : Grid} :
    valid g = .ok true ↔ WFgrid g ∧ ¬ HasRepeat g := by
  constructor
  · intro h
    by_cases hwf : WFgrid g
    · refine ⟨hwf, ?_⟩
      rw [valid_eq_decide hwf] at h
      simpa using h
    · obtain ⟨e, he⟩ := valid_error_iff.2 hwf
      rw [he] at h
      exact absurd h (by simp)
  · rintro ⟨hwf, hrep⟩
    rw [valid_eq_decide hwf]
    simp [hrep]

theorem valid_ok_false_iff {g : Grid} :
    valid g = .ok false ↔ WFgrid g ∧ HasRepeat g := by
  constructor
  · intro h
    by_cases hwf : WFgrid g
    · refine ⟨hwf, ?_⟩
      rw [valid_eq_decide hwf] at h
      simpa using h
    · obtain ⟨e, he⟩ := valid_error_iff.2 hwf
      rw [he] at h
      exact absurd h (by simp)
  · rintro ⟨hwf, hrep⟩
    rw [valid_eq_decide hwf]
    simp [hrep]

theorem char_eq_of_toNat_eq {a b : Char} (h : a.toNat = b.toNat) : a = b := by
  have ha := Char.ofNat_toNat a
  have hb := Char.ofNat_toNat b
  rw [← ha, ← hb, h]

theorem char_le_iff_toNat {a b : Char} : a ≤ b ↔ a.toNat ≤ b.toNat := by
  rw [Char.le_def]
  exact ⟨fun h => h, fun h => h⟩

/-- On the ASCII digits pyCharInt is the offset from the zero digit. -/
theorem pyCharInt_ascii {c : Char} (h48 : 48 ≤ c.toNat) (h57 : c.toNat ≤ 57) :
    pyCharInt c = .ok (c.toNat - 48) := by
  unfold pyCharInt ndRunStarts
  rw [List.find?_cons_of_pos _
    (by simp only [Bool.and_eq_true, decide_eq_true_eq]; omega)]

/-- pyCharInt raises only ValueError. -/
theorem pyCharInt_error_eq {c : Char} {e : Err} (h : pyCharInt c = .error e) :
    e = .valueError := by
  unfold pyCharInt at h
  split at h
  · exact absurd h (by simp)
  · exact (Except.error.inj h).symm

/-- Full characterization of a successful `storeChars` run: every listed
position holds the unknown cell for a dot, or the digit value of its
character, which the guard keeps in 1..9; unlisted positions are
untouched. -/
theorem storeChars_spec :
    ∀ (L : List ((ℕ × ℕ) × Char)) (a g : Grid),
      (L.map Prod.fst).Nodup →
      (∀ pc ∈ L, pc.1.1 < 9 ∧ pc.1.2 < 9) →
      (∀ pc ∈ L, cellAt a pc.1.1 pc.1.2 = none) →
      storeChars L a = .ok g →
      (∀ pc ∈ L, (pc.2 = '.' ∧ cellAt g pc.1.1 pc.1.2 = none) ∨
        (∃ v, pyCharInt pc.2 = .ok v ∧ 1 ≤ v ∧ v ≤ 9 ∧
          cellAt g pc.1.1 pc.1.2 = some v)) ∧
      (∀ l r : ℕ, (∀ pc ∈ L, pc.1 ≠ (l, r)) → cellAt g l r = cellAt a l r) := by
  intro L
  induction L with
  | nil =>
    intro a g _ _ _ hok
    obtain rfl : a = g := by
      simpa [storeChars] using hok
    exact ⟨by simp, fun _ _ _ => rfl⟩
  | cons pc rest ih =>
    rintro a g hnd hlt hnone hok
    obtain ⟨⟨l, r⟩, ch⟩ := pc
    obtain ⟨hl9, hr9⟩ := hlt _ (List.mem_cons_self _ _)
    have hndr : (rest.map Prod.fst).Nodup := (List.nodup_cons.1 hnd).2
    have hnotin : ((l, r) : ℕ × ℕ) ∉ rest.map Prod.fst := (List.nodup_cons.1 hnd).1
    by_cases hdot : ch = '.'
    · subst hdot
      have hok2 : storeChars rest a = .ok g := by
        simpa [storeChars] using hok
      obtain ⟨hmem, hframe⟩ := ih a g hndr
        (fun pc h => hlt pc (List.mem_cons_of_mem _ h))
        (fun pc h => hnone pc (List.mem_cons_of_mem _ h)) hok2
      refine ⟨?_, ?_⟩
      · rintro pc2 hpc2
        rcases List.mem_cons.1 hpc2 with h | h
        · subst h
          refine Or.inl ⟨rfl, ?_⟩
          rw [hframe l r ?_]
          · exact hnone _ (List.mem_cons_self _ _)
          · intro pc3 hpc3 hc
            exact hnotin (hc ▸ List.mem_map_of_mem Prod.fst hpc3)
        · exact hmem pc2 h
      · intro l' r' hne
        exact hframe l' r' fun pc3 h => hne pc3 (List.mem_cons_of_mem _ h)
    · rw [storeChars, if_neg hdot] at hok
      split at hok
      · exact absurd hok (by simp)
      rename_i v hpy
      by_cases hnz : 1 ≤ v ∧ v ≤ 9
      · rw [if_pos hnz] at hok
        have hok2 := hok
        obtain ⟨hmem, hframe⟩ := ih (setCell a l r (some v)) g hndr
          (fun pc h => hlt pc (List.mem_cons_of_mem _ h))
          (fun pc h => by
            rw [cellAt_setCell_other, hnone pc (List.mem_cons_of_mem _ h)]
            intro hc
            exact hnotin (by
              have : pc.1 = (l, r) := Prod.ext hc.1 hc.2
              exact this ▸ List.mem_map_of_mem Prod.fst h))
          hok2
        refine ⟨?_, ?_⟩
        · rintro pc2 hpc2
          rcases List.mem_cons.1 hpc2 with h | h
          · subst h
            refine Or.inr ⟨v, hpy, hnz.1, hnz.2, ?_⟩
            rw [hframe l r ?_]
            · exact cellAt_setCell_same hl9 hr9 _
            · intro pc3 hpc3 hc
              exact hnotin (hc ▸ List.mem_map_of_mem Prod.fst hpc3)
          · exact hmem pc2 h
        · intro l' r' hne
          rw [hframe l' r' fun pc3 h => hne pc3 (List.mem_cons_of_mem _ h)]
          rw [cellAt_setCell_other]
          intro hc
          exact (hne _ (List.mem_cons_self _ _))
            (show ((l, r) : ℕ × ℕ) = (l', r') from Prod.ext hc.1.symm hc.2.symm)
      · rw [if_neg hnz] at hok
        exact absurd hok (by simp)

theorem cells81_length : cells81.length = 81 := by
  simp [cells81]

theorem cellAt_empty (l r : ℕ) : cellAt emptyGrid l r = none := by
  unfold cellAt emptyGrid
  split <;> rfl

theorem cellOK_charCellV {ch : Char}
    (h : ch = '.' ∨ (49 ≤ ch.toNat ∧ ch.toNat ≤ 57)) :
    cellOK (charCellV ch) = true := by
  rcases h with rfl | ⟨h1, h2⟩
  · simp [charCellV, cellOK]
  · have hne : ch ≠ '.' := by
      intro hc
      subst hc
      simp at h1
    simp only [charCellV, if_neg hne, cellOK]
    simp only [Bool.and_eq_true, decide_eq_true_eq]
    omega

theorem cellChar_charCellV {ch : Char}
    (h : ch = '.' ∨ (49 ≤ ch.toNat ∧ ch.toNat ≤ 57)) :
    cellChar (charCellV ch) = ch := by
  rcases h with rfl | ⟨h1, h2⟩
  · simp [charCellV, cellChar]
  · have hne : ch ≠ '.' := by
      intro hc
      subst hc
      simp at h1
    simp only [charCellV, if_neg hne, cellChar]
    have he : 48 + (ch.toNat - 48) = ch.toNat := by omega
    rw [he, Char.ofNat_toNat]

theorem toNat_digitChar {v : ℕ} (h : v ≤ 9) : (Char.ofNat (48 + v)).toNat = 48 + v := by
  interval_cases v <;> decide

theorem charCellV_cellChar {c : Cell} (h : cellOK c = true) :
    charCellV (cellChar c) = c := by
  match c with
  | none => simp [cellChar, charCellV]
  | some v =>
    simp only [cellOK, Bool.and_eq_true, decide_eq_true_eq] at h
    have ht := toNat_digitChar h.2
    have hne : Char.ofNat (48 + v) ≠ '.' := by
      intro hc
      rw [hc] at ht
      simp at ht
      omega
    simp only [cellChar, charCellV, if_neg hne, ht]
    have : 48 + v - 48 = v := by omega
    rw [this]

/-- Every successful parse of a length-81 string: each grid cell is
unknown when its character is the dot, and holds the digit value of its
character, in 1..9, otherwise. -/
theorem parse_spec {s : List Char} {g : Grid} (hlen : s.length = 81)
    (hok : sudokuOfString s = .ok g) :
    ∀ pc ∈ cells81.zip s,
      (pc.2 = '.' ∧ cellAt g pc.1.1 pc.1.2 = none) ∨
      (∃ v, pyCharInt pc.2 = .ok v ∧ 1 ≤ v ∧ v ≤ 9 ∧
        cellAt g pc.1.1 pc.1.2 = some v) := by
  have hne : s ≠ [] := by
    intro hc
    rw [hc] at hlen
    simp at hlen
  unfold sudokuOfString at hok
  rw [if_neg hne, if_neg (by omega)] at hok
  have hfst : (cells81.zip s).map Prod.fst = cells81 :=
    List.map_fst_zip cells81 s (by rw [cells81_length, hlen])
  have hnd : ((cells81.zip s).map Prod.fst).Nodup := by
    rw [hfst]
    exact cells81_nodup
  exact (storeChars_spec (cells81.zip s) emptyGrid g hnd
    (fun pc h => mem_cells81.1 (List.of_mem_zip h).1)
    (fun pc _ => cellAt_empty _ _) hok).1

/-- Membership coverage: for a length-81 string every coordinate pair is
listed in the zip, with its character. -/
theorem zip_covers {s : List Char} (hlen : s.length = 81) {l r : ℕ}
    (h : (l, r) ∈ cells81) : ∃ ch, ((l, r), ch) ∈ cells81.zip s := by
  have hfst : (cells81.zip s).map Prod.fst = cells81 :=
    List.map_fst_zip cells81 s (by rw [cells81_length, hlen])
  rw [← hfst] at h
  obtain ⟨pc, hpc, he⟩ := List.mem_map.1 h
  exact ⟨pc.2, by rwa [show (((l, r), pc.2) : (ℕ × ℕ) × Char) = pc from Prod.ext he.symm rfl]⟩

theorem parse_WF {s : List Char} {g : Grid}
    (hok : sudokuOfString s = .ok g) : WFgrid g := by
  by_cases hnil : s = []
  · subst hnil
    obtain rfl : emptyGrid = g := by simpa [sudokuOfString] using hok
    intro l r
    rfl
  by_cases hlen : s.length = 81
  · intro l r
    obtain ⟨ch, hch⟩ := zip_covers hlen (mem_cells81.2 ⟨l.isLt, r.isLt⟩)
    rcases parse_spec hlen hok _ hch with ⟨-, hcell⟩ | ⟨v, -, h1, h9, hcell⟩
    · have hg : g l r = none := by
        rw [← cellAt_fin g l r]
        exact hcell
      rw [hg]
      rfl
    · have hg : g l r = some v := by
        rw [← cellAt_fin g l r]
        exact hcell
      rw [hg]
      simp only [cellOK, Bool.and_eq_true, decide_eq_true_eq]
      exact ⟨h1, h9⟩
  · unfold sudokuOfString at hok
    rw [if_neg hnil, if_pos hlen] at hok
    exact absurd hok (by simp)

/-- Round trip on length-81 accepted strings whose characters are the
dot or the ASCII digits 1..9: serializing the parsed grid returns the
input string.  (An accepted non-ASCII digit parses to the same value as
its ASCII counterpart and serializes to the ASCII digit, so the round
trip needs the restriction.) -/
theorem roundtrip_aux {s : List Char} {g : Grid} (hlen : s.length = 81)
    (hascii : ∀ ch ∈ s, ch = '.' ∨ ('1' ≤ ch ∧ ch ≤ '9'))
    (hok : sudokuOfString s = .ok g) : strOfGrid g = .ok s := by
  unfold strOfGrid
  rw [verify_ok_iff.2 (parse_WF hok)]
  have hfst : (cells81.zip s).map Prod.fst = cells81 :=
    List.map_fst_zip cells81 s (by rw [cells81_length, hlen])
  have hsnd : (cells81.zip s).map Prod.snd = s :=
    List.map_snd_zip cells81 s (by rw [cells81_length, hlen])
  have hmain : cells81.map (fun p => cellChar (cellAt g p.1 p.2)) = s := by
    calc cells81.map (fun p => cellChar (cellAt g p.1 p.2))
        = ((cells81.zip s).map Prod.fst).map
            (fun p => cellChar (cellAt g p.1 p.2)) := by rw [hfst]
      _ = (cells81.zip s).map
            ((fun p => cellChar (cellAt g p.1 p.2)) ∘ Prod.fst) := by
            rw [List.map_map]
      _ = (cells81.zip s).map Prod.snd := by
            apply List.map_congr_left
            intro pc hpc
            show cellChar (cellAt g pc.1.1 pc.1.2) = pc.2
            rcases parse_spec hlen hok pc hpc with ⟨hdot, hcell⟩ |
              ⟨v, hpy, h1, h9, hcell⟩
            · rw [hcell, hdot]
              rfl
            · have hne : pc.2 ≠ '.' := by
                intro hc
                rw [hc] at hpy
                rw [show pyCharInt '.' = .error .valueError by decide] at hpy
                exact absurd hpy (by simp)
              rcases hascii pc.2 (List.of_mem_zip hpc).2 with hdot | ⟨ha1, ha9⟩
              · exact absurd hdot hne
              · have h49 : 49 ≤ pc.2.toNat := char_le_iff_toNat.1 ha1
                have h57 : pc.2.toNat ≤ 57 := char_le_iff_toNat.1 ha9
                rw [pyCharInt_ascii (by omega) h57] at hpy
                obtain rfl : v = pc.2.toNat - 48 := (Except.ok.inj hpy).symm
                rw [hcell]
                have hcv : charCellV pc.2 = some (pc.2.toNat - 48) := by
                  simp [charCellV, hne]
                rw [← hcv]
                exact cellChar_charCellV (Or.inr ⟨h49, h57⟩)
      _ = s := hsnd
  rw [hmain]

/-- storeChars succeeds when every character is a dot or a digit 1..9. -/
theorem storeChars_ok_of_good :
    ∀ (L : List ((ℕ × ℕ) × Char)) (a : Grid),
      (∀ pc ∈ L, pc.2 = '.' ∨ (49 ≤ pc.2.toNat ∧ pc.2.toNat ≤ 57)) →
      ∃ g', storeChars L a = .ok g' := by
  intro L
  induction L with
  | nil => exact fun a _ => ⟨a, rfl⟩
  | cons pc rest ih =>
    rintro a hgood
    obtain ⟨⟨l, r⟩, ch⟩ := pc
    rcases hgood _ (List.mem_cons_self _ _) with hdot | ⟨h1, h2⟩
    · obtain ⟨g', hg'⟩ := ih a fun pc h => hgood pc (List.mem_cons_of_mem _ h)
      refine ⟨g', ?_⟩
      rw [storeChars]
      simp only at hdot
      rw [if_pos hdot]
      exact hg'
    · simp only at h1 h2
      have hne : ch ≠ '.' := by
        intro hc
        rw [hc] at h1
        simp at h1
      have hdig : '0' ≤ ch ∧ ch ≤ '9' := by
        constructor
        · rw [Char.le_def]
          show '0'.toNat ≤ ch.toNat
          have : '0'.toNat = 48 := rfl
          omega
        · rw [Char.le_def]
          show ch.toNat ≤ '9'.toNat
          have : '9'.toNat = 57 := rfl
          omega
      obtain ⟨g', hg'⟩ := ih (setCell a l r (some (ch.toNat - 48)))
        fun pc h => hgood pc (List.mem_cons_of_mem _ h)
      refine ⟨g', ?_⟩
      rw [storeChars, if_neg hne, pyCharInt_ascii (by omega) (by omega)]
      show (if 1 ≤ ch.toNat - 48 ∧ ch.toNat - 48 ≤ 9 then _ else _) = _
      rw [if_pos (by omega)]
      exact hg'

theorem strOfGrid_eq {g : Grid} (hwf : WFgrid g) :
    strOfGrid g = .ok (serChars g) := by
  unfold strOfGrid serChars
  rw [verify_ok_iff.2 hwf]

theorem serChars_length (g : Grid) : (serChars g).length = 81 := by
  simp [serChars, cells81]

/-- Parsing the serialization of a well-formed grid returns the grid:
the copy `Sudoku(grid.__str__())` equals the original. -/
theorem parse_serChars {g : Grid} (hwf : WFgrid g) :
    sudokuOfString (serChars g) = .ok g := by
  have hzip : cells81.zip (serChars g) =
      cells81.map fun p => (p, cellChar (cellAt g p.1 p.2)) := by
    unfold serChars
    calc cells81.zip (cells81.map fun p => cellChar (cellAt g p.1 p.2))
        = (cells81.map id).zip (cells81.map fun p => cellChar (cellAt g p.1 p.2)) := by
          rw [List.map_id]
      _ = cells81.map fun p => (id p, cellChar (cellAt g p.1 p.2)) :=
          List.zip_map' _ _ _
      _ = cells81.map fun p => (p, cellChar (cellAt g p.1 p.2)) := rfl
  have hok : ∀ l r : ℕ, l < 9 → r < 9 → cellOK (cellAt g l r) = true := by
    intro l r hl hr
    rw [cellAt_lt hl hr]
    exact hwf _ _
  have hgood : ∀ pc ∈ cells81.zip (serChars g),
      pc.2 = '.' ∨ (49 ≤ pc.2.toNat ∧ pc.2.toNat ≤ 57) := by
    intro pc hpc
    rw [hzip] at hpc
    obtain ⟨p, hp, rfl⟩ := List.mem_map.1 hpc
    obtain ⟨h1, h2⟩ := mem_cells81.1 hp
    have := hok p.1 p.2 h1 h2
    match hc : cellAt g p.1 p.2 with
    | none => exact Or.inl rfl
    | some v =>
      rw [hc] at this
      simp only [cellOK, Bool.and_eq_true, decide_eq_true_eq] at this
      refine Or.inr ?_
      show 49 ≤ (cellChar (some v)).toNat ∧ (cellChar (some v)).toNat ≤ 57
      simp only [cellChar]
      rw [toNat_digitChar this.2]
      omega
  have hne : serChars g ≠ [] := by
    intro hc
    have := serChars_length g
    rw [hc] at this
    simp at this
  obtain ⟨g', hg'⟩ := storeChars_ok_of_good _ emptyGrid hgood
  have heq : sudokuOfString (serChars g) = .ok g' := by
    unfold sudokuOfString
    rw [if_neg hne, if_neg (by rw [serChars_length]; omega)]
    exact hg'
  suffices hsame : g' = g by
    rw [heq, hsame]
  obtain ⟨hmem, _⟩ := storeChars_spec _ emptyGrid g'
    (by rw [List.map_fst_zip cells81 _ (by rw [cells81_length, serChars_length])]
        exact cells81_nodup)
    (fun pc h => mem_cells81.1 (List.of_mem_zip h).1)
    (fun pc _ => cellAt_empty _ _) hg'
  funext l r
  have hmemc : ((l.val, r.val), cellChar (cellAt g l.val r.val)) ∈
      cells81.zip (serChars g) := by
    rw [hzip]
    exact List.mem_map_of_mem _ (mem_cells81.2 ⟨l.isLt, r.isLt⟩)
  have hok2 : cellOK (cellAt g l.val r.val) = true := hok _ _ l.isLt r.isLt
  rcases hmem _ hmemc with ⟨hdot0, hcell0⟩ | ⟨v, hpy0, h1, h9, hcell0⟩
  · have hdot : cellChar (cellAt g l.val r.val) = '.' := hdot0
    have hcell : cellAt g' l.val r.val = none := hcell0
    have hnone : cellAt g l.val r.val = none := by
      cases hc : cellAt g l.val r.val with
      | none => rfl
      | some w =>
        rw [hc] at hok2 hdot
        simp only [cellOK, Bool.and_eq_true, decide_eq_true_eq] at hok2
        have ht := toNat_digitChar hok2.2
        rw [show cellChar (some w) = Char.ofNat (48 + w) from rfl] at hdot
        rw [hdot] at ht
        have h46 : (46 : ℕ) = 48 + w := ht
        omega
    rw [cellAt_fin] at hcell hnone
    rw [hcell, hnone]
  · have hpy : pyCharInt (cellChar (cellAt g l.val r.val)) = .ok v := hpy0
    have hcell : cellAt g' l.val r.val = some v := hcell0
    have hgv : cellAt g l.val r.val = some v := by
      cases hc : cellAt g l.val r.val with
      | none =>
        rw [hc] at hpy
        rw [show cellChar none = '.' from rfl] at hpy
        rw [show pyCharInt '.' = .error .valueError by decide] at hpy
        exact absurd hpy (by simp)
      | some w =>
        rw [hc] at hok2 hpy
        simp only [cellOK, Bool.and_eq_true, decide_eq_true_eq] at hok2
        have ht := toNat_digitChar hok2.2
        rw [show cellChar (some w) = Char.ofNat (48 + w) from rfl] at hpy
        rw [pyCharInt_ascii (by omega) (by omega)] at hpy
        rw [ht] at hpy
        have hwv : w = v := by
          have h := Except.ok.inj hpy
          omega
        rw [hwv]
    rw [cellAt_fin] at hcell hgv
    rw [hcell, hgv]

/-- storeChars fails when some listed character is not good: neither a
dot nor a decimal digit of value 1..9.  The first bad character raises
GridStringError when it is a digit of value outside 1..9 and ValueError
(from int) otherwise. -/
theorem storeChars_error_of_bad :
    ∀ (L : List ((ℕ × ℕ) × Char)) (a : Grid),
      (∃ pc ∈ L, goodChar pc.2 = false) →
      ∃ e, storeChars L a = .error e ∧
        (e = .gridStringError ∨ e = .valueError) := by
  intro L
  induction L with
  | nil =>
    rintro a ⟨pc, hpc, -⟩
    exact absurd hpc (by simp)
  | cons pc0 rest ih =>
    rintro a ⟨pc, hpc, hbad⟩
    obtain ⟨⟨l, r⟩, ch⟩ := pc0
    by_cases hgood : goodChar ch = true
    · have hmemr : pc ∈ rest := by
        rcases List.mem_cons.1 hpc with h | h
        · exfalso
          rw [h] at hbad
          have hf : goodChar ch = false := hbad
          rw [hf] at hgood
          exact absurd hgood (by simp)
        · exact h
      unfold goodChar at hgood
      rw [Bool.or_eq_true] at hgood
      rcases hgood with hdot | hdig
      · have hdot2 : ch = '.' := by simpa using hdot
        obtain ⟨e, he, hkind⟩ := ih a ⟨pc, hmemr, hbad⟩
        refine ⟨e, ?_, hkind⟩
        rw [storeChars, if_pos hdot2]
        exact he
      · cases hpy : pyCharInt ch with
        | error e0 =>
          rw [hpy] at hdig
          exact absurd hdig (by simp)
        | ok v =>
          rw [hpy] at hdig
          simp only [Bool.and_eq_true, decide_eq_true_eq] at hdig
          have hne : ch ≠ '.' := by
            intro hc
            rw [hc] at hpy
            rw [show pyCharInt '.' = .error .valueError by decide] at hpy
            exact absurd hpy (by simp)
          obtain ⟨e, he, hkind⟩ := ih (setCell a l r (some v)) ⟨pc, hmemr, hbad⟩
          refine ⟨e, ?_, hkind⟩
          rw [storeChars, if_neg hne, hpy]
          show (if 1 ≤ v ∧ v ≤ 9 then storeChars rest (setCell a l r (some v))
            else _) = _
          rw [if_pos hdig]
          exact he
    · have hgf : goodChar ch = false := by
        cases h : goodChar ch
        · rfl
        · exact absurd h hgood
      unfold goodChar at hgf
      rw [Bool.or_eq_false_iff] at hgf
      obtain ⟨hd, hm⟩ := hgf
      have hne : ch ≠ '.' := by simpa using hd
      cases hpy : pyCharInt ch with
      | error e0 =>
        refine ⟨e0, ?_, Or.inr (pyCharInt_error_eq hpy)⟩
        rw [storeChars, if_neg hne, hpy]
      | ok v =>
        rw [hpy] at hm
        have hm2 : (decide (1 ≤ v) && decide (v ≤ 9)) = false := hm
        have hnr : ¬(1 ≤ v ∧ v ≤ 9) := by
          intro hr
          rw [decide_eq_true hr.1, decide_eq_true hr.2] at hm2
          exact absurd hm2 (by simp)
        refine ⟨.gridStringError, ?_, Or.inl rfl⟩
        rw [storeChars, if_neg hne, hpy]
        show (if 1 ≤ v ∧ v ≤ 9 then storeChars rest (setCell a l r (some v))
          else _) = _
        rw [if_neg hnr]

/-! ## The grid field is never written by candidate_map -/

theorem grid_foldl {β : Type} {f : CState → β → CState}
    (h : ∀ s b, (f s b).grid = s.grid) (l : List β) :
    ∀ s : CState, (l.foldl f s).grid = s.grid := by
  induction l with
  | nil => intro s; rfl
  | cons b t ih =>
    intro s
    rw [List.foldl_cons, ih, h]

theorem grid_phaseAInner (l r v : ℕ) (s : CState) :
    (phaseAInner l r v s).grid = s.grid := by
  unfold phaseAInner
  apply grid_foldl
  intro t i
  split <;> split <;> split <;> rfl

theorem grid_phaseAStep (s : CState) (p : ℕ × ℕ) :
    (phaseAStep s p).grid = s.grid := by
  unfold phaseAStep
  split
  · split
    · rw [grid_phaseAInner]
      rfl
    · rfl
  · rfl

theorem grid_phaseA (g : Grid) : (phaseA g).grid = g := by
  unfold phaseA
  rw [grid_foldl grid_phaseAStep]
  rfl

theorem grid_block1 (n i : ℕ) (s : CState) : (block1 n i s).grid = s.grid := by
  unfold block1
  dsimp only
  split
  · rw [hsDiscardsLine]
    rw [grid_foldl (by intro t j; split <;> split <;> rfl)]
    rfl
  · split
    · split
      · unfold lockedLine
        exact grid_foldl (by intro t j; split <;> rfl) _ _
      · rfl
    · rfl

theorem grid_block2 (n i : ℕ) (s : CState) : (block2 n i s).grid = s.grid := by
  unfold block2
  dsimp only
  split
  · rw [hsDiscardsCol]
    rw [grid_foldl (by intro t j; split <;> split <;> rfl)]
    rfl
  · split
    · split
      · unfold lockedCol
        exact grid_foldl (by intro t j; split <;> rfl) _ _
      · rfl
    · rfl

theorem grid_block3 (n i : ℕ) (s : CState) : (block3 n i s).grid = s.grid := by
  unfold block3
  dsimp only
  split
  · rw [hsDiscardsBox]
    rw [grid_foldl (by intro t j; split <;> split <;> rfl)]
    rfl
  · split
    · split
      · unfold lockedBoxLine
        exact grid_foldl (by intro t j; rfl) _ _
      · split
        · unfold lockedBoxCol
          exact grid_foldl (by intro t j; rfl) _ _
        · rfl
    · rfl

theorem grid_passUnit (n i : ℕ) (s : CState) : (passUnit n i s).grid = s.grid := by
  unfold passUnit
  rw [grid_block3, grid_block2, grid_block1]

theorem grid_passAll (s : CState) : (passAll s).grid = s.grid := by
  unfold passAll
  apply grid_foldl
  intro t n
  exact grid_foldl (fun u i => grid_passUnit n i u) _ _

theorem grid_reduceLoop : ∀ (fuel : ℕ) (s : CState),
    (reduceLoop fuel s).grid = s.grid
  | 0, s => rfl
  | fuel + 1, s => by
    rw [reduceLoop]
    split
    · rw [grid_reduceLoop fuel, grid_passAll]
    · exact grid_passAll s

theorem grid_candidateMapS (g : Grid) : (candidateMapS g).grid = g := by
  unfold candidateMapS
  rw [grid_reduceLoop, grid_phaseA]

/-! ## Pointwise facts about the candidate state operations -/

theorem cand_disc_self (a b n : ℕ) (s : CState) :
    (disc a b n s).cand a b = (s.cand a b).erase n := by
  simp [disc, upd2]

theorem cand_disc_other {a b x y : ℕ} (h : ¬(x = a ∧ y = b)) (n : ℕ) (s : CState) :
    (disc a b n s).cand x y = s.cand x y := by
  simp only [disc, upd2]
  rw [if_neg h]

theorem cand_coll_self (a b n : ℕ) (s : CState) :
    (coll a b n s).cand a b = {n} := by
  simp [coll, upd2]

theorem cand_coll_other {a b x y : ℕ} (h : ¬(x = a ∧ y = b)) (n : ℕ) (s : CState) :
    (coll a b n s).cand x y = s.cand x y := by
  simp only [coll, upd2]
  rw [if_neg h]

theorem cand_disc_subset (a b n x y : ℕ) (s : CState) :
    (disc a b n s).cand x y ⊆ s.cand x y := by
  by_cases h : x = a ∧ y = b
  · obtain ⟨rfl, rfl⟩ := h
    rw [cand_disc_self]
    exact Finset.erase_subset n _
  · rw [cand_disc_other h]

theorem not_mem_disc {a b n x y v : ℕ} {s : CState} (h : v ∉ s.cand x y) :
    v ∉ (disc a b n s).cand x y :=
  fun hc => h (cand_disc_subset a b n x y s hc)

/-- Fold preservation where the step property is only needed for list
members. -/
theorem foldl_preserve_mem {α β : Type} {P : α → Prop} {f : α → β → α} :
    ∀ (l : List β), (∀ a, ∀ b ∈ l, P a → P (f a b)) →
      ∀ a : α, P a → P (l.foldl f a)
  | [], _, _, ha => ha
  | b :: t, h, a, ha =>
    foldl_preserve_mem t (fun a' b' hb' => h a' b' (List.mem_cons_of_mem _ hb'))
      (f a b) (h a b (List.mem_cons_self _ _) ha)

/-- Fold establishment where preservation and establishment are only
needed for members. -/
theorem foldl_establish_mem {α β : Type} {P : α → Prop} {f : α → β → α}
    {l : List β} (hpres : ∀ a, ∀ b ∈ l, P a → P (f a b)) {b : β} (hb : b ∈ l)
    (hest : ∀ a, P (f a b)) : ∀ a : α, P (l.foldl f a) := by
  intro a
  obtain ⟨l1, l2, rfl⟩ := List.append_of_mem hb
  rw [List.foldl_append]
  show P (List.foldl f (List.foldl f a l1) (b :: l2))
  rw [List.foldl_cons]
  apply foldl_preserve_mem l2
  · intro a' b' hb' ha'
    exact hpres a' b' (by simp [hb']) ha'
  · exact hest _

theorem headD_mem {α : Type} {l : List α} (h : l ≠ []) (d : α) : l.headD d ∈ l := by
  match l with
  | [] => exact absurd rfl h
  | a :: t => exact List.mem_cons_self _ _

/-- The first entry of a nonempty filtered range: below 9 and satisfying
the filter predicate. -/
theorem filter_headD_facts {p : ℕ → Bool} (h : ((List.range 9).filter p).length ≠ 0) :
    ((List.range 9).filter p).headD 0 < 9 ∧ p (((List.range 9).filter p).headD 0) = true := by
  have hne : (List.range 9).filter p ≠ [] := fun hc => h (by rw [hc]; rfl)
  have hmem := headD_mem hne 0
  have hm := List.mem_filter.1 hmem
  exact ⟨List.mem_range.1 hm.1, hm.2⟩

/-- Members of a list all mapped to one value by f share that value. -/
theorem map_toFinset_card_one {α : Type} [DecidableEq α] {l : List ℕ} {f : ℕ → α}
    (h : (l.map f).toFinset.card = 1) :
    ∀ a ∈ l, ∀ b ∈ l, f a = f b := by
  obtain ⟨x, hx⟩ := Finset.card_eq_one.1 h
  intro a ha b hb
  have hax : f a ∈ (l.map f).toFinset := by
    rw [List.mem_toFinset]
    exact List.mem_map_of_mem f ha
  have hbx : f b ∈ (l.map f).toFinset := by
    rw [List.mem_toFinset]
    exact List.mem_map_of_mem f hb
  rw [hx, Finset.mem_singleton] at hax hbx
  rw [hax, hbx]

theorem SubIcc_disc {s : CState} (h : SubIcc s) (a b n : ℕ) :
    SubIcc (disc a b n s) :=
  fun x y => (cand_disc_subset a b n x y s).trans (h x y)

theorem SubIcc_coll {s : CState} (h : SubIcc s) {n : ℕ} (hn : 1 ≤ n ∧ n ≤ 9)
    (a b : ℕ) : SubIcc (coll a b n s) := by
  intro x y
  by_cases hc : x = a ∧ y = b
  · obtain ⟨rfl, rfl⟩ := hc
    rw [cand_coll_self]
    intro z hz
    rw [Finset.mem_singleton] at hz
    subst hz
    rw [Finset.mem_Icc]
    exact hn
  · rw [cand_coll_other hc]
    exact h x y

theorem SubIcc_phaseAStep {s : CState} (h : SubIcc s) (p : ℕ × ℕ) :
    SubIcc (phaseAStep s p) := by
  unfold phaseAStep
  split
  · rename_i v hv
    split
    · rename_i hrange
      unfold phaseAInner
      apply foldl_preserve (P := SubIcc) ?_ _ _ (SubIcc_coll h hrange p.1 p.2)
      intro t i ht
      dsimp only
      split <;> split <;> split <;> (repeat' (apply SubIcc_disc)) <;> exact ht
    · exact h
  · exact h

theorem SubIcc_block1 {s : CState} (h : SubIcc s) {n : ℕ} (hn : 1 ≤ n ∧ n ≤ 9)
    (i : ℕ) : SubIcc (block1 n i s) := by
  unfold block1
  dsimp only
  split
  · unfold hsDiscardsLine
    apply foldl_preserve (P := SubIcc) ?_ _ _ (SubIcc_coll h hn i _)
    intro t j ht
    dsimp only
    split <;> split <;> (repeat' (apply SubIcc_disc)) <;> exact ht
  · split
    · split
      · unfold lockedLine
        apply foldl_preserve (P := SubIcc) ?_ _ _ h
        intro t j ht
        split
        · exact SubIcc_disc ht _ _ _
        · exact ht
      · exact h
    · exact h

theorem SubIcc_block2 {s : CState} (h : SubIcc s) {n : ℕ} (hn : 1 ≤ n ∧ n ≤ 9)
    (i : ℕ) : SubIcc (block2 n i s) := by
  unfold block2
  dsimp only
  split
  · unfold hsDiscardsCol
    apply foldl_preserve (P := SubIcc) ?_ _ _ (SubIcc_coll h hn _ i)
    intro t j ht
    dsimp only
    split <;> split <;> (repeat' (apply SubIcc_disc)) <;> exact ht
  · split
    · split
      · unfold lockedCol
        apply foldl_preserve (P := SubIcc) ?_ _ _ h
        intro t j ht
        split
        · exact SubIcc_disc ht _ _ _
        · exact ht
      · exact h
    · exact h

theorem SubIcc_block3 {s : CState} (h : SubIcc s) {n : ℕ} (hn : 1 ≤ n ∧ n ≤ 9)
    (i : ℕ) : SubIcc (block3 n i s) := by
  unfold block3
  dsimp only
  split
  · unfold hsDiscardsBox
    apply foldl_preserve (P := SubIcc) ?_ _ _ (SubIcc_coll h hn _ _)
    intro t j ht
    dsimp only
    split <;> split <;> (repeat' (apply SubIcc_disc)) <;> exact ht
  · split
    · split
      · unfold lockedBoxLine
        apply foldl_preserve (P := SubIcc) ?_ _ _ h
        intro t j ht
        exact SubIcc_disc ht _ _ _
      · split
        · unfold lockedBoxCol
          apply foldl_preserve (P := SubIcc) ?_ _ _ h
          intro t j ht
          exact SubIcc_disc ht _ _ _
        · exact h
    · exact h

theorem SubIcc_passAll {s : CState} (h : SubIcc s) : SubIcc (passAll s) := by
  unfold passAll
  apply foldl_preserve_mem _ ?_ _ h
  intro t n hn ht
  have hn19 : 1 ≤ n ∧ n ≤ 9 := by
    rw [List.mem_range'_1] at hn
    omega
  apply foldl_preserve (P := SubIcc) ?_ _ _ ht
  intro u i hu
  unfold passUnit
  exact SubIcc_block3 (SubIcc_block2 (SubIcc_block1 hu hn19 i) hn19 i) hn19 i

theorem SubIcc_phaseA (g : Grid) : SubIcc (phaseA g) := by
  unfold phaseA
  apply foldl_preserve (P := SubIcc) (fun t p ht => SubIcc_phaseAStep ht p)
  intro x y
  exact Finset.Subset.refl _

theorem SubIcc_reduceLoop {s : CState} (h : SubIcc s) :
    ∀ fuel : ℕ, SubIcc (reduceLoop fuel s)
  | 0 => h
  | fuel + 1 => by
    rw [reduceLoop]
    split
    · exact SubIcc_reduceLoop (SubIcc_passAll h) fuel
    · exact SubIcc_passAll h

theorem SubIcc_candidateMapS (g : Grid) : SubIcc (candidateMapS g) :=
  SubIcc_reduceLoop (SubIcc_phaseA g) 730

/-! ## Termination of the reduction loop (claim C8) -/

theorem totalCount_le {s : CState} (h : SubIcc s) : totalCount s ≤ 729 := by
  unfold totalCount
  have hb : ∀ p ∈ cells81, (s.cand p.1 p.2).card ≤ 9 := by
    intro p _
    have := Finset.card_le_card (h p.1 p.2)
    simpa using this
  calc (cells81.map fun p => (s.cand p.1 p.2).card).sum
      ≤ (cells81.map fun _ => 9).sum := by
        apply List.sum_le_sum
        intro p hp
        exact hb p hp
    _ = 729 := by rfl

theorem reduceLoop_stable {s : CState} {fuel : ℕ} (h : totalCount s < fuel) :
    reduceLoop (fuel + 1) s = reduceLoop fuel s := by
  induction fuel generalizing s with
  | zero => omega
  | succ f ih =>
    rw [reduceLoop]
    conv_rhs => rw [reduceLoop]
    split
    · rename_i hlt
      exact ih (by omega)
    · rfl

theorem reduceLoop_add_stable {s : CState} {fuel : ℕ} (h : totalCount s < fuel) :
    ∀ n : ℕ, reduceLoop (fuel + n) s = reduceLoop fuel s := by
  intro n
  induction n with
  | zero => rfl
  | succ m ih =>
    have : fuel + (m + 1) = (fuel + m) + 1 := by omega
    rw [this, reduceLoop_stable (by omega), ih]

theorem ElimAt_disc {g : Grid} {s : CState} {p} (h : ElimAt g s p) (a b n : ℕ) :
    ElimAt g (disc a b n s) p :=
  fun v hv q hsu hne => not_mem_disc (h v hv q hsu hne)

theorem PeerElim_disc {g : Grid} {s : CState} (h : PeerElim g s) (a b n : ℕ) :
    PeerElim g (disc a b n s) :=
  fun p => ElimAt_disc (h p) a b n

theorem ElimAt_coll_mem {g : Grid} {s : CState} {p} {a b n : ℕ}
    (hmem : n ∈ s.cand a b) (h : ElimAt g s p) : ElimAt g (coll a b n s) p := by
  intro v hv q hsu hne
  by_cases hc : q.1.val = a ∧ q.2.val = b
  · rw [show (coll a b n s).cand q.1.val q.2.val = {n} by
      rw [hc.1, hc.2, cand_coll_self]]
    rw [Finset.mem_singleton]
    intro hveq
    subst hveq
    have hmem2 : v ∈ s.cand q.1.val q.2.val := by
      rw [hc.1, hc.2]
      exact hmem
    exact (h v hv q hsu hne) hmem2
  · rw [cand_coll_other hc]
    exact h v hv q hsu hne

theorem PeerElim_coll_mem {g : Grid} {s : CState} {a b n : ℕ}
    (hmem : n ∈ s.cand a b) (h : PeerElim g s) : PeerElim g (coll a b n s) :=
  fun p => ElimAt_coll_mem hmem (h p)

theorem ElimAt_coll_resolved {g : Grid} {s : CState} {p} {a b n : ℕ}
    (hval : ∀ (ha : a < 9) (hb : b < 9), g ⟨a, ha⟩ ⟨b, hb⟩ = some n)
    (hnr : ¬ HasRepeat g) (h : ElimAt g s p) : ElimAt g (coll a b n s) p := by
  intro v hv q hsu hne
  by_cases hc : q.1.val = a ∧ q.2.val = b
  · rw [show (coll a b n s).cand q.1.val q.2.val = {n} by
      rw [hc.1, hc.2, cand_coll_self]]
    rw [Finset.mem_singleton]
    intro hveq
    subst hveq
    have ha9 : a < 9 := hc.1 ▸ q.1.isLt
    have hb9 : b < 9 := hc.2 ▸ q.2.isLt
    have hq : g q.1 q.2 = some v := by
      rw [← cellAt_fin g q.1 q.2, hc.1, hc.2, cellAt_lt ha9 hb9]
      exact hval ha9 hb9
    exact hnr ⟨p, q, fun hc2 => hne hc2.symm, hsu, v, hv, hq⟩
  · rw [cand_coll_other hc]
    exact h v hv q hsu hne

/-- After the inner loop of the initial elimination for resolved cell
(l, r) with value v, no peer of (l, r) still has candidate v. -/
theorem phaseAInner_cover {l r : ℕ} (hl : l < 9) (hr : r < 9) (v : ℕ)
    (s : CState) (q : Fin 9 × Fin 9)
    (hsu : SameUnit (⟨l, hl⟩, ⟨r, hr⟩) q) (hne : q ≠ (⟨l, hl⟩, ⟨r, hr⟩)) :
    v ∉ (phaseAInner l r v s).cand q.1.val q.2.val := by
  unfold phaseAInner
  have hpres : ∀ (t : CState), ∀ i ∈ List.range 9,
      v ∉ t.cand q.1.val q.2.val →
      v ∉ ((fun t i =>
        let t1 := if i ≠ r then disc l i v t else t
        let t2 := if i ≠ l then disc i r v t1 else t1
        if l - l % 3 + i / 3 ≠ l ∨ r - r % 3 + i % 3 ≠ r then
          disc (l - l % 3 + i / 3) (r - r % 3 + i % 3) v t2
        else t2) t i).cand q.1.val q.2.val := by
    intro t i _ ht
    dsimp only
    split <;> split <;> split <;>
      (repeat' (apply not_mem_disc)) <;> exact ht
  have hqne : q.1.val ≠ l ∨ q.2.val ≠ r := by
    by_contra hc
    push_neg at hc
    exact hne (Prod.ext (Fin.ext hc.1) (Fin.ext hc.2))
  rcases hsu with hline | hcol | hbox
  · -- same line: q = (l, q.2) with q.2.val different from r
    have hq1 : q.1.val = l := by rw [← hline]
    have hq2 : q.2.val ≠ r := by
      rcases hqne with h | h
      · exact absurd hq1 h
      · exact h
    apply foldl_establish_mem hpres (List.mem_range.2 q.2.isLt)
    intro t
    dsimp only
    rw [if_pos hq2]
    have h1 : v ∉ (disc l q.2.val v t).cand q.1.val q.2.val := by
      rw [hq1, cand_disc_self]
      exact Finset.not_mem_erase v _
    split <;> split <;> (repeat (first | exact h1 | apply not_mem_disc))
  · -- same row: q = (q.1, r) with q.1.val different from l
    have hq2 : q.2.val = r := by rw [← hcol]
    have hq1 : q.1.val ≠ l := by
      rcases hqne with h | h
      · exact h
      · exact absurd hq2 h
    apply foldl_establish_mem hpres (List.mem_range.2 q.1.isLt)
    intro t
    dsimp only
    have h2 : ∀ t' : CState, v ∉ (disc q.1.val r v t').cand q.1.val q.2.val := by
      intro t'
      rw [hq2, cand_disc_self]
      exact Finset.not_mem_erase v _
    rw [if_pos hq1]
    split <;> split <;> (repeat (first | exact h2 _ | apply not_mem_disc))
  · -- same box
    obtain ⟨hb1, hb2⟩ := hbox
    have hql := q.1.isLt
    have hqr := q.2.isLt
    apply foldl_establish_mem hpres
      (List.mem_range.2 (show 3 * (q.1.val - (l - l % 3)) + (q.2.val - (r - r % 3)) < 9 by
        simp only [] at hb1 hb2
        omega))
    intro t
    dsimp only
    have he1 : l - l % 3 + (3 * (q.1.val - (l - l % 3)) + (q.2.val - (r - r % 3))) / 3
        = q.1.val := by
      simp only [] at hb1 hb2
      omega
    have he2 : r - r % 3 + (3 * (q.1.val - (l - l % 3)) + (q.2.val - (r - r % 3))) % 3
        = q.2.val := by
      simp only [] at hb1 hb2
      omega
    have hguard : l - l % 3 + (3 * (q.1.val - (l - l % 3)) + (q.2.val - (r - r % 3))) / 3 ≠ l
        ∨ r - r % 3 + (3 * (q.1.val - (l - l % 3)) + (q.2.val - (r - r % 3))) % 3 ≠ r := by
      rw [he1, he2]
      exact hqne
    rw [if_pos hguard, he1, he2, cand_disc_self]
    exact Finset.not_mem_erase v _

theorem ElimAt_phaseAInner {g : Grid} {s : CState} {p} (h : ElimAt g s p)
    (l r v : ℕ) : ElimAt g (phaseAInner l r v s) p := by
  unfold phaseAInner
  refine foldl_preserve_mem (P := fun u => ElimAt g u p) _ ?_ _ h
  intro t i _ ht
  dsimp only
  split <;> split <;> split <;> (repeat' (apply ElimAt_disc)) <;> exact ht

theorem ElimAt_phaseAStep {g : Grid} {s : CState} {p} (hnr : ¬ HasRepeat g)
    (hgrid : s.grid = g) (h : ElimAt g s p) (pc : ℕ × ℕ) :
    ElimAt g (phaseAStep s pc) p := by
  unfold phaseAStep
  split
  · rename_i w hw
    split
    · apply ElimAt_phaseAInner
      apply ElimAt_coll_resolved ?_ hnr h
      intro ha hb
      rw [hgrid, cellAt_lt ha hb] at hw
      exact hw
    · exact h
  · exact h

/-- After the initial elimination pass, every resolved digit of the grid
has been discarded from all its peers. -/
theorem phaseA_elim {g : Grid} (hnr : ¬ HasRepeat g) (hwf : WFgrid g) :
    PeerElim g (phaseA g) := by
  intro p
  have hpc : ((p.1.val, p.2.val) : ℕ × ℕ) ∈ cells81 :=
    mem_cells81.2 ⟨p.1.isLt, p.2.isLt⟩
  obtain ⟨L1, L2, hsplit⟩ := List.append_of_mem hpc
  unfold phaseA
  rw [hsplit, List.foldl_append, List.foldl_cons]
  have hg1 : (List.foldl phaseAStep (initState g) L1).grid = g := by
    rw [grid_foldl grid_phaseAStep]
    rfl
  set s1 := List.foldl phaseAStep (initState g) L1 with hs1
  have hstep : ElimAt g (phaseAStep s1 (p.1.val, p.2.val)) p ∧
      (phaseAStep s1 (p.1.val, p.2.val)).grid = g := by
    refine ⟨?_, by rw [grid_phaseAStep]; exact hg1⟩
    unfold phaseAStep
    simp only [hg1]
    rw [show cellAt g p.1.val p.2.val = g p.1 p.2 from cellAt_fin g p.1 p.2]
    split
    · rename_i w hw
      rw [if_pos ?_]
      · intro v hv q hsu hne
        have hvw : v = w := by
          rw [hv] at hw
          exact Option.some.inj hw
        subst hvw
        exact phaseAInner_cover p.1.isLt p.2.isLt v _ q hsu hne
      · have := hwf p.1 p.2
        rw [hw] at this
        simp only [cellOK, Bool.and_eq_true, decide_eq_true_eq] at this
        exact this
    · intro v hv
      rename_i hnone
      rw [hv] at hnone
      simp at hnone
  have : ∀ t : CState, ElimAt g t p ∧ t.grid = g →
      ElimAt g (List.foldl phaseAStep t L2) p ∧
        (List.foldl phaseAStep t L2).grid = g := by
    intro t ht
    refine foldl_preserve (P := fun u => ElimAt g u p ∧ u.grid = g) ?_ L2 t ht
    rintro u pc ⟨hu, hug⟩
    exact ⟨ElimAt_phaseAStep hnr hug hu pc, by rw [grid_phaseAStep]; exact hug⟩
  exact (this _ hstep).1

theorem PeerElim_block1 {g : Grid} {s : CState} (h : PeerElim g s) (n i : ℕ) :
    PeerElim g (block1 n i s) := by
  unfold block1
  dsimp only
  split
  · rename_i hcond
    have hmem : n ∈ s.cand i
        (((List.range 9).filter fun j => decide (n ∈ s.cand i j)).headD 0) := by
      have := (filter_headD_facts (p := fun j => decide (n ∈ s.cand i j))
        (by rw [hcond.1]; omega)).2
      simpa using this
    unfold hsDiscardsLine
    refine foldl_preserve (P := PeerElim g) ?_ _ _ (PeerElim_coll_mem hmem h)
    intro t j ht
    dsimp only
    split <;> split <;> (repeat' (apply PeerElim_disc)) <;> exact ht
  · split
    · split
      · unfold lockedLine
        refine foldl_preserve (P := PeerElim g) ?_ _ _ h
        intro t j ht
        split
        · exact PeerElim_disc ht _ _ _
        · exact ht
      · exact h
    · exact h

theorem PeerElim_block2 {g : Grid} {s : CState} (h : PeerElim g s) (n i : ℕ) :
    PeerElim g (block2 n i s) := by
  unfold block2
  dsimp only
  split
  · rename_i hcond
    have hmem : n ∈ s.cand
        (((List.range 9).filter fun j => decide (n ∈ s.cand j i)).headD 0) i := by
      have := (filter_headD_facts (p := fun j => decide (n ∈ s.cand j i))
        (by rw [hcond.1]; omega)).2
      simpa using this
    unfold hsDiscardsCol
    refine foldl_preserve (P := PeerElim g) ?_ _ _ (PeerElim_coll_mem hmem h)
    intro t j ht
    dsimp only
    split <;> split <;> (repeat' (apply PeerElim_disc)) <;> exact ht
  · split
    · split
      · unfold lockedCol
        refine foldl_preserve (P := PeerElim g) ?_ _ _ h
        intro t j ht
        split
        · exact PeerElim_disc ht _ _ _
        · exact ht
      · exact h
    · exact h

theorem PeerElim_block3 {g : Grid} {s : CState} (h : PeerElim g s) (n i : ℕ) :
    PeerElim g (block3 n i s) := by
  unfold block3
  dsimp only
  split
  · rename_i hcond
    have hmem : n ∈ s.cand
        (3 * (i / 3) + (((List.range 9).filter fun j =>
          decide (n ∈ s.cand (3 * (i / 3) + j / 3) (3 * (i % 3) + j % 3))).headD 0) / 3)
        (3 * (i % 3) + (((List.range 9).filter fun j =>
          decide (n ∈ s.cand (3 * (i / 3) + j / 3) (3 * (i % 3) + j % 3))).headD 0) % 3) := by
      have := (filter_headD_facts (p := fun j =>
        decide (n ∈ s.cand (3 * (i / 3) + j / 3) (3 * (i % 3) + j % 3)))
        (by rw [hcond.1]; omega)).2
      simpa using this
    unfold hsDiscardsBox
    refine foldl_preserve (P := PeerElim g) ?_ _ _ (PeerElim_coll_mem hmem h)
    intro t j ht
    dsimp only
    split <;> split <;> (repeat' (apply PeerElim_disc)) <;> exact ht
  · split
    · split
      · unfold lockedBoxLine
        refine foldl_preserve (P := PeerElim g) ?_ _ _ h
        intro t j ht
        exact PeerElim_disc ht _ _ _
      · split
        · unfold lockedBoxCol
          refine foldl_preserve (P := PeerElim g) ?_ _ _ h
          intro t j ht
          exact PeerElim_disc ht _ _ _
        · exact h
    · exact h

theorem PeerElim_passAll {g : Grid} {s : CState} (h : PeerElim g s) :
    PeerElim g (passAll s) := by
  unfold passAll
  refine foldl_preserve (P := PeerElim g) ?_ _ _ h
  intro t n ht
  refine foldl_preserve (P := PeerElim g) ?_ _ _ ht
  intro u i hu
  unfold passUnit
  exact PeerElim_block3 (PeerElim_block2 (PeerElim_block1 hu n i) n i) n i

theorem PeerElim_reduceLoop {g : Grid} {s : CState} (h : PeerElim g s) :
    ∀ fuel : ℕ, PeerElim g (reduceLoop fuel s)
  | 0 => h
  | fuel + 1 => by
    rw [reduceLoop]
    split
    · exact PeerElim_reduceLoop (PeerElim_passAll h) fuel
    · exact PeerElim_passAll h

/-- Peer elimination holds of the full candidate map of a valid grid. -/
theorem PeerElim_candidateMapS {g : Grid} (hv : valid g = .ok true) :
    PeerElim g (candidateMapS g) := by
  obtain ⟨hwf, hnr⟩ := valid_ok_true_iff.1 hv
  exact PeerElim_reduceLoop (phaseA_elim hnr hwf) 730

/-! ## Complete valid grids carry each digit once per unit -/

theorem norep_unit {c : Grid} (hnr : ¬ HasRepeat c) {p q : Fin 9 × Fin 9}
    (hsu : SameUnit p q) {n : ℕ} (hp : c p.1 p.2 = some n)
    (hq : c q.1 q.2 = some n) : p = q := by
  by_contra hne
  exact hnr ⟨p, q, hne, hsu, n, hp, hq⟩

theorem exists_preimage {f : Fin 9 → Fin 9} (hinj : Function.Injective f)
    (y : Fin 9) : ∃ j, f j = y :=
  (Finite.injective_iff_surjective.1 hinj) y

theorem getD_facts {c : Grid} (hcomp : CompleteDigits c) (l r : Fin 9) :
    c l r = some ((c l r).getD 0) ∧ 1 ≤ (c l r).getD 0 ∧ (c l r).getD 0 ≤ 9 := by
  obtain ⟨v, hv, h1, h9⟩ := hcomp l r
  rw [hv]
  exact ⟨rfl, h1, h9⟩

/-- In a complete repeat-free grid, every digit 1..9 appears in every
line. -/
theorem exists_line {c : Grid} (hcomp : CompleteDigits c) (hnr : ¬ HasRepeat c)
    {i n : ℕ} (hi : i < 9) (hn : 1 ≤ n ∧ n ≤ 9) :
    ∃ j : ℕ, j < 9 ∧ cellAt c i j = some n := by
  have hbound : ∀ j : Fin 9, (c ⟨i, hi⟩ j).getD 0 - 1 < 9 := by
    intro j
    have := (getD_facts hcomp ⟨i, hi⟩ j).2
    omega
  have hinj : Function.Injective
      (fun j : Fin 9 => (⟨(c ⟨i, hi⟩ j).getD 0 - 1, hbound j⟩ : Fin 9)) := by
    intro j1 j2 hf
    have hv1 := getD_facts hcomp ⟨i, hi⟩ j1
    have hv2 := getD_facts hcomp ⟨i, hi⟩ j2
    have hveq : (c ⟨i, hi⟩ j1).getD 0 = (c ⟨i, hi⟩ j2).getD 0 := by
      have := congrArg Fin.val hf
      simp only [] at this
      omega
    have hpq := norep_unit hnr (p := (⟨i, hi⟩, j1)) (q := (⟨i, hi⟩, j2))
      (Or.inl rfl) hv1.1 (by rw [hveq]; exact hv2.1)
    exact congrArg Prod.snd hpq
  obtain ⟨j, hj⟩ := exists_preimage hinj ⟨n - 1, by omega⟩
  refine ⟨j.val, j.isLt, ?_⟩
  rw [cellAt_lt hi j.isLt]
  have hfacts := getD_facts hcomp ⟨i, hi⟩ j
  have hval := congrArg Fin.val hj
  simp only [] at hval
  rw [hfacts.1]
  have : (c ⟨i, hi⟩ j).getD 0 = n := by omega
  rw [this]

/-- In a complete repeat-free grid, every digit 1..9 appears in every
row. -/
theorem exists_col {c : Grid} (hcomp : CompleteDigits c) (hnr : ¬ HasRepeat c)
    {i n : ℕ} (hi : i < 9) (hn : 1 ≤ n ∧ n ≤ 9) :
    ∃ j : ℕ, j < 9 ∧ cellAt c j i = some n := by
  have hbound : ∀ j : Fin 9, (c j ⟨i, hi⟩).getD 0 - 1 < 9 := by
    intro j
    have := (getD_facts hcomp j ⟨i, hi⟩).2
    omega
  have hinj : Function.Injective
      (fun j : Fin 9 => (⟨(c j ⟨i, hi⟩).getD 0 - 1, hbound j⟩ : Fin 9)) := by
    intro j1 j2 hf
    have hv1 := getD_facts hcomp j1 ⟨i, hi⟩
    have hv2 := getD_facts hcomp j2 ⟨i, hi⟩
    have hveq : (c j1 ⟨i, hi⟩).getD 0 = (c j2 ⟨i, hi⟩).getD 0 := by
      have := congrArg Fin.val hf
      simp only [] at this
      omega
    have hpq := norep_unit hnr (p := (j1, ⟨i, hi⟩)) (q := (j2, ⟨i, hi⟩))
      (Or.inr (Or.inl rfl)) hv1.1 (by rw [hveq]; exact hv2.1)
    exact congrArg Prod.fst hpq
  obtain ⟨j, hj⟩ := exists_preimage hinj ⟨n - 1, by omega⟩
  refine ⟨j.val, j.isLt, ?_⟩
  rw [cellAt_lt j.isLt hi]
  have hfacts := getD_facts hcomp j ⟨i, hi⟩
  have hval := congrArg Fin.val hj
  simp only [] at hval
  rw [hfacts.1]
  have : (c j ⟨i, hi⟩).getD 0 = n := by omega
  rw [this]

/-- In a complete repeat-free grid, every digit 1..9 appears in every
box, located by the within-box index j of the box scan. -/
theorem exists_box {c : Grid} (hcomp : CompleteDigits c) (hnr : ¬ HasRepeat c)
    {i n : ℕ} (hi : i < 9) (hn : 1 ≤ n ∧ n ≤ 9) :
    ∃ j : ℕ, j < 9 ∧
      cellAt c (3 * (i / 3) + j / 3) (3 * (i % 3) + j % 3) = some n := by
  have hL : ∀ j : Fin 9, 3 * (i / 3) + j.val / 3 < 9 := by
    intro j
    have := j.isLt
    omega
  have hR : ∀ j : Fin 9, 3 * (i % 3) + j.val % 3 < 9 := by
    intro j
    have := j.isLt
    omega
  have hbound : ∀ j : Fin 9,
      (c ⟨3 * (i / 3) + j.val / 3, hL j⟩ ⟨3 * (i % 3) + j.val % 3, hR j⟩).getD 0 - 1 < 9 := by
    intro j
    have := (getD_facts hcomp ⟨3 * (i / 3) + j.val / 3, hL j⟩
      ⟨3 * (i % 3) + j.val % 3, hR j⟩).2
    omega
  have hinj : Function.Injective (fun j : Fin 9 =>
      (⟨(c ⟨3 * (i / 3) + j.val / 3, hL j⟩
          ⟨3 * (i % 3) + j.val % 3, hR j⟩).getD 0 - 1, hbound j⟩ : Fin 9)) := by
    intro j1 j2 hf
    have hv1 := getD_facts hcomp ⟨3 * (i / 3) + j1.val / 3, hL j1⟩
      ⟨3 * (i % 3) + j1.val % 3, hR j1⟩
    have hv2 := getD_facts hcomp ⟨3 * (i / 3) + j2.val / 3, hL j2⟩
      ⟨3 * (i % 3) + j2.val % 3, hR j2⟩
    have hveq := congrArg Fin.val hf
    simp only [] at hveq
    have hveq2 : (c ⟨3 * (i / 3) + j1.val / 3, hL j1⟩
        ⟨3 * (i % 3) + j1.val % 3, hR j1⟩).getD 0 =
        (c ⟨3 * (i / 3) + j2.val / 3, hL j2⟩
        ⟨3 * (i % 3) + j2.val % 3, hR j2⟩).getD 0 := by
      have h11 := hv1.2
      have h22 := hv2.2
      omega
    have hsu : SameUnit
        (⟨3 * (i / 3) + j1.val / 3, hL j1⟩, ⟨3 * (i % 3) + j1.val % 3, hR j1⟩)
        (⟨3 * (i / 3) + j2.val / 3, hL j2⟩, ⟨3 * (i % 3) + j2.val % 3, hR j2⟩) := by
      refine Or.inr (Or.inr ⟨?_, ?_⟩)
      · show (3 * (i / 3) + j1.val / 3) / 3 = (3 * (i / 3) + j2.val / 3) / 3
        have := j1.isLt
        have := j2.isLt
        omega
      · show (3 * (i % 3) + j1.val % 3) / 3 = (3 * (i % 3) + j2.val % 3) / 3
        have := j1.isLt
        have := j2.isLt
        omega
    have hpq := norep_unit hnr hsu hv1.1 (by rw [hveq2]; exact hv2.1)
    have he1 : 3 * (i / 3) + j1.val / 3 = 3 * (i / 3) + j2.val / 3 :=
      congrArg (fun p : Fin 9 × Fin 9 => p.1.val) hpq
    have he2 : 3 * (i % 3) + j1.val % 3 = 3 * (i % 3) + j2.val % 3 :=
      congrArg (fun p : Fin 9 × Fin 9 => p.2.val) hpq
    have hj1 := j1.isLt
    have hj2 := j2.isLt
    exact Fin.ext (by omega)
  obtain ⟨j, hj⟩ := exists_preimage hinj ⟨n - 1, by omega⟩
  refine ⟨j.val, j.isLt, ?_⟩
  rw [cellAt_lt (hL j) (hR j)]
  have hfacts := getD_facts hcomp ⟨3 * (i / 3) + j.val / 3, hL j⟩
    ⟨3 * (i % 3) + j.val % 3, hR j⟩
  have hval := congrArg Fin.val hj
  simp only [] at hval
  rw [hfacts.1]
  have : (c ⟨3 * (i / 3) + j.val / 3, hL j⟩
      ⟨3 * (i % 3) + j.val % 3, hR j⟩).getD 0 = n := by omega
  rw [this]

/-! ## Soundness of the candidate map (claim C2): values of any valid
completion are never discarded -/

theorem cellAt_some_lt {c : Grid} {a b v : ℕ} (h : cellAt c a b = some v) :
    a < 9 ∧ b < 9 := by
  by_contra hc
  rw [show cellAt c a b = none from by unfold cellAt; rw [dif_neg hc]] at h
  exact absurd h (by simp)

/-- Two occurrences of the same digit in one unit sit in the same cell. -/
theorem cellAt_norep {c : Grid} (hnr : ¬ HasRepeat c) {a b x y n : ℕ}
    (h1 : cellAt c a b = some n) (h2 : cellAt c x y = some n)
    (hsu : a = x ∨ b = y ∨ (a / 3 = x / 3 ∧ b / 3 = y / 3)) : a = x ∧ b = y := by
  obtain ⟨ha, hb⟩ := cellAt_some_lt h1
  obtain ⟨hx, hy⟩ := cellAt_some_lt h2
  rw [cellAt_lt ha hb] at h1
  rw [cellAt_lt hx hy] at h2
  have hsu2 : SameUnit (⟨a, ha⟩, ⟨b, hb⟩) (⟨x, hx⟩, ⟨y, hy⟩) := by
    rcases hsu with h | h | h
    · exact Or.inl (Fin.ext h)
    · exact Or.inr (Or.inl (Fin.ext h))
    · exact Or.inr (Or.inr h)
  have hpq := norep_unit hnr hsu2 h1 h2
  exact ⟨congrArg (fun p : Fin 9 × Fin 9 => p.1.val) hpq,
    congrArg (fun p : Fin 9 × Fin 9 => p.2.val) hpq⟩

theorem CandInv_disc {c : Grid} {s : CState} {a b n : ℕ}
    (hsafe : cellAt c a b ≠ some n) (h : CandInv c s) :
    CandInv c (disc a b n s) := by
  intro l r v hv
  by_cases hc : l.val = a ∧ r.val = b
  · rw [show (disc a b n s).cand l.val r.val = (s.cand a b).erase n by
      rw [hc.1, hc.2, cand_disc_self]]
    rw [Finset.mem_erase]
    refine ⟨?_, by rw [← hc.1, ← hc.2]; exact h l r v hv⟩
    intro hveq
    subst hveq
    apply hsafe
    rw [← hc.1, ← hc.2, cellAt_fin]
    exact hv
  · rw [cand_disc_other hc]
    exact h l r v hv

theorem CandInv_coll {c : Grid} {s : CState} {a b n : ℕ}
    (hval : cellAt c a b = some n) (h : CandInv c s) :
    CandInv c (coll a b n s) := by
  intro l r v hv
  by_cases hc : l.val = a ∧ r.val = b
  · rw [show (coll a b n s).cand l.val r.val = {n} by
      rw [hc.1, hc.2, cand_coll_self]]
    rw [Finset.mem_singleton]
    have : cellAt c a b = some v := by
      rw [← hc.1, ← hc.2, cellAt_fin]
      exact hv
    rw [hval] at this
    exact (Option.some.inj this).symm
  · rw [cand_coll_other hc]
    exact h l r v hv

theorem length_one_headD {l : List ℕ} (h : l.length = 1) : l = [l.headD 0] := by
  match l with
  | [a] => rfl
  | [] => simp at h
  | a :: b :: t => simp at h

theorem CandInv_phaseAStep {g c : Grid} {s : CState} (hext : ExtendsG g c)
    (hnr : ¬ HasRepeat c) (hgrid : s.grid = g) (h : CandInv c s) (pc : ℕ × ℕ) :
    CandInv c (phaseAStep s pc) := by
  unfold phaseAStep
  split
  · rename_i w hw
    split
    · rw [hgrid] at hw
      obtain ⟨hl9, hr9⟩ := cellAt_some_lt hw
      have hcw : cellAt c pc.1 pc.2 = some w := by
        rw [cellAt_lt hl9 hr9]
        apply hext
        exact (cellAt_lt (g := g) hl9 hr9).symm.trans hw
      unfold phaseAInner
      refine foldl_preserve_mem (P := CandInv c) _ ?_ _ (CandInv_coll hcw h)
      intro t i hi ht
      have hi9 : i < 9 := List.mem_range.1 hi
      dsimp only
      have h1 : ∀ t' : CState, CandInv c t' →
          CandInv c (if i ≠ pc.2 then disc pc.1 i w t' else t') := by
        intro t' ht'
        split
        · rename_i hne
          refine CandInv_disc ?_ ht'
          intro hcontra
          have := cellAt_norep hnr hcw hcontra (Or.inl rfl)
          exact hne this.2.symm
        · exact ht'
      have h2 : ∀ t' : CState, CandInv c t' →
          CandInv c (if i ≠ pc.1 then disc i pc.2 w t' else t') := by
        intro t' ht'
        split
        · rename_i hne
          refine CandInv_disc ?_ ht'
          intro hcontra
          have := cellAt_norep hnr hcw hcontra (Or.inr (Or.inl rfl))
          exact hne this.1.symm
        · exact ht'
      have h3 : ∀ t' : CState, CandInv c t' →
          CandInv c (if pc.1 - pc.1 % 3 + i / 3 ≠ pc.1 ∨ pc.2 - pc.2 % 3 + i % 3 ≠ pc.2 then
            disc (pc.1 - pc.1 % 3 + i / 3) (pc.2 - pc.2 % 3 + i % 3) w t' else t') := by
        intro t' ht'
        split
        · rename_i hne
          refine CandInv_disc ?_ ht'
          intro hcontra
          have := cellAt_norep hnr hcw hcontra
            (Or.inr (Or.inr ⟨by omega, by omega⟩))
          rcases hne with hne | hne
          · exact hne this.1.symm
          · exact hne this.2.symm
        · exact ht'
      exact h3 _ (h2 _ (h1 _ ht))
    · exact h
  · exact h

set_option maxRecDepth 4096 in
theorem CandInv_phaseA {g c : Grid} (hext : ExtendsG g c)
    (hcomp : CompleteDigits c) (hnr : ¬ HasRepeat c) : CandInv c (phaseA g) := by
  unfold phaseA
  have hinit : CandInv c (initState g) ∧ (initState g).grid = g := by
    refine ⟨?_, rfl⟩
    intro l r v hv
    obtain ⟨w, hw, h1, h9⟩ := hcomp l r
    rw [hv] at hw
    obtain rfl : v = w := Option.some.inj hw
    show v ∈ Finset.Icc 1 9
    rw [Finset.mem_Icc]
    exact ⟨h1, h9⟩
  have := foldl_preserve (P := fun s => CandInv c s ∧ s.grid = g)
    (fun t pc ht => ⟨CandInv_phaseAStep hext hnr ht.2 ht.1 pc,
      by rw [grid_phaseAStep]; exact ht.2⟩) cells81 _ hinit
  exact this.1

theorem CandInv_hsLine {c : Grid} {s : CState} (hnr : ¬ HasRepeat c)
    (h : CandInv c s) {n i j0 : ℕ} (hi : i < 9) (hj0 : j0 < 9)
    (hc0 : cellAt c i j0 = some n) :
    CandInv c (hsDiscardsLine i j0 n (coll i j0 n s)) := by
  unfold hsDiscardsLine
  refine foldl_preserve_mem (P := CandInv c) _ ?_ _ (CandInv_coll hc0 h)
  intro t j hj ht
  have hj9 : j < 9 := List.mem_range.1 hj
  dsimp only
  have h1 : ∀ t' : CState, CandInv c t' →
      CandInv c (if j ≠ i then disc j j0 n t' else t') := by
    intro t' ht'
    split
    · rename_i hne
      refine CandInv_disc ?_ ht'
      intro hcontra
      exact hne (cellAt_norep hnr hc0 hcontra (Or.inr (Or.inl rfl))).1.symm
    · exact ht'
  have h2 : ∀ t' : CState, CandInv c t' →
      CandInv c (if i - i % 3 + j / 3 ≠ i then
        disc (i - i % 3 + j / 3) (j0 - j0 % 3 + j % 3) n t' else t') := by
    intro t' ht'
    split
    · rename_i hne
      refine CandInv_disc ?_ ht'
      intro hcontra
      exact hne (cellAt_norep hnr hc0 hcontra
        (Or.inr (Or.inr ⟨by omega, by omega⟩))).1.symm
    · exact ht'
  exact h2 _ (h1 _ ht)

theorem CandInv_lockedLine {c : Grid} {s : CState} (hnr : ¬ HasRepeat c)
    (h : CandInv c s) {n i js j0 : ℕ} (hi : i < 9) (hjs : js < 9) (hj0 : j0 < 9)
    (hcjs : cellAt c i js = some n) (hdiv : js / 3 = j0 / 3) :
    CandInv c (lockedLine i (3 * (i / 3) + j0 / 3) n s) := by
  unfold lockedLine
  refine foldl_preserve_mem (P := CandInv c) _ ?_ _ h
  intro t j hj ht
  have hj9 : j < 9 := List.mem_range.1 hj
  split
  · rename_i hne
    refine CandInv_disc ?_ ht
    intro hcontra
    exact hne (cellAt_norep hnr hcjs hcontra
      (Or.inr (Or.inr ⟨by omega, by omega⟩))).1.symm
  · exact ht

theorem CandInv_hsCol {c : Grid} {s : CState} (hnr : ¬ HasRepeat c)
    (h : CandInv c s) {n i j0 : ℕ} (hi : i < 9) (hj0 : j0 < 9)
    (hc0 : cellAt c j0 i = some n) :
    CandInv c (hsDiscardsCol i j0 n (coll j0 i n s)) := by
  unfold hsDiscardsCol
  refine foldl_preserve_mem (P := CandInv c) _ ?_ _ (CandInv_coll hc0 h)
  intro t j hj ht
  have hj9 : j < 9 := List.mem_range.1 hj
  dsimp only
  have h1 : ∀ t' : CState, CandInv c t' →
      CandInv c (if j ≠ i then disc j0 j n t' else t') := by
    intro t' ht'
    split
    · rename_i hne
      refine CandInv_disc ?_ ht'
      intro hcontra
      exact hne (cellAt_norep hnr hc0 hcontra (Or.inl rfl)).2.symm
    · exact ht'
  have h2 : ∀ t' : CState, CandInv c t' →
      CandInv c (if i - i % 3 + j % 3 ≠ i then
        disc (j0 - j0 % 3 + j / 3) (i - i % 3 + j % 3) n t' else t') := by
    intro t' ht'
    split
    · rename_i hne
      refine CandInv_disc ?_ ht'
      intro hcontra
      exact hne (cellAt_norep hnr hc0 hcontra
        (Or.inr (Or.inr ⟨by omega, by omega⟩))).2.symm
    · exact ht'
  exact h2 _ (h1 _ ht)

theorem CandInv_lockedCol {c : Grid} {s : CState} (hnr : ¬ HasRepeat c)
    (h : CandInv c s) {n i js j0 : ℕ} (hi : i < 9) (hjs : js < 9) (hj0 : j0 < 9)
    (hcjs : cellAt c js i = some n) (hdiv : js / 3 = j0 / 3) :
    CandInv c (lockedCol i (3 * (j0 / 3) + i / 3) n s) := by
  unfold lockedCol
  refine foldl_preserve_mem (P := CandInv c) _ ?_ _ h
  intro t j hj ht
  have hj9 : j < 9 := List.mem_range.1 hj
  split
  · rename_i hne
    refine CandInv_disc ?_ ht
    intro hcontra
    have hsq1 : (3 * (j0 / 3) + i / 3) / 3 = j0 / 3 := by omega
    have hsq2 : (3 * (j0 / 3) + i / 3) % 3 = i / 3 := by omega
    refine hne ?_
    rw [hsq2] at hcontra ⊢
    rw [hsq1] at hcontra
    exact (cellAt_norep hnr hcjs hcontra
      (Or.inr (Or.inr ⟨by omega, by omega⟩))).2.symm
  · exact ht

theorem CandInv_hsBox {c : Grid} {s : CState} (hnr : ¬ HasRepeat c)
    (h : CandInv c s) {n i j0 : ℕ} (hi : i < 9) (hj0 : j0 < 9)
    (hc0 : cellAt c (3 * (i / 3) + j0 / 3) (3 * (i % 3) + j0 % 3) = some n) :
    CandInv c (hsDiscardsBox i j0 n
      (coll (3 * (i / 3) + j0 / 3) (3 * (i % 3) + j0 % 3) n s)) := by
  unfold hsDiscardsBox
  refine foldl_preserve_mem (P := CandInv c) _ ?_ _ (CandInv_coll hc0 h)
  intro t j hj ht
  have hj9 : j < 9 := List.mem_range.1 hj
  dsimp only
  have h1 : ∀ t' : CState, CandInv c t' →
      CandInv c (if j ∉ [3 * (i % 3), 3 * (i % 3) + 1, 3 * (i % 3) + 2] then
        disc (3 * (i / 3) + j0 / 3) j n t' else t') := by
    intro t' ht'
    split
    · rename_i hne
      simp only [List.mem_cons, List.not_mem_nil, or_false, not_or] at hne
      refine CandInv_disc ?_ ht'
      intro hcontra
      have := (cellAt_norep hnr hc0 hcontra (Or.inl rfl)).2
      omega
    · exact ht'
  have h2 : ∀ t' : CState, CandInv c t' →
      CandInv c (if j ∉ [3 * (i / 3), 3 * (i / 3) + 1, 3 * (i / 3) + 2] then
        disc j (3 * (i % 3) + j0 % 3) n t' else t') := by
    intro t' ht'
    split
    · rename_i hne
      simp only [List.mem_cons, List.not_mem_nil, or_false, not_or] at hne
      refine CandInv_disc ?_ ht'
      intro hcontra
      have := (cellAt_norep hnr hc0 hcontra (Or.inr (Or.inl rfl))).1
      omega
    · exact ht'
  exact h2 _ (h1 _ ht)

theorem CandInv_lockedBoxLine {c : Grid} {s : CState} (hnr : ¬ HasRepeat c)
    (h : CandInv c s) {n i js j0 : ℕ} (hi : i < 9) (hjs : js < 9) (hj0 : j0 < 9)
    (hcjs : cellAt c (3 * (i / 3) + js / 3) (3 * (i % 3) + js % 3) = some n)
    (hdiv : js / 3 = j0 / 3) :
    CandInv c (lockedBoxLine i (3 * (i / 3) + j0 / 3) n s) := by
  unfold lockedBoxLine
  refine foldl_preserve_mem (P := CandInv c) _ ?_ _ h
  intro t rw2 hrw ht
  have hrw9 : rw2 < 9 := List.mem_range.1 (List.mem_filter.1 hrw).1
  have hout := (List.mem_filter.1 hrw).2
  simp only [decide_eq_true_eq, List.mem_cons, List.not_mem_nil, or_false, not_or] at hout
  refine CandInv_disc ?_ ht
  intro hcontra
  rw [← hdiv] at hcontra
  have := (cellAt_norep hnr hcjs hcontra (Or.inl rfl)).2
  omega

theorem CandInv_lockedBoxCol {c : Grid} {s : CState} (hnr : ¬ HasRepeat c)
    (h : CandInv c s) {n i js j0 : ℕ} (hi : i < 9) (hjs : js < 9) (hj0 : j0 < 9)
    (hcjs : cellAt c (3 * (i / 3) + js / 3) (3 * (i % 3) + js % 3) = some n)
    (hdiv : js % 3 = j0 % 3) :
    CandInv c (lockedBoxCol i (3 * (i % 3) + j0 % 3) n s) := by
  unfold lockedBoxCol
  refine foldl_preserve_mem (P := CandInv c) _ ?_ _ h
  intro t ln hln ht
  have hln9 : ln < 9 := List.mem_range.1 (List.mem_filter.1 hln).1
  have hout := (List.mem_filter.1 hln).2
  simp only [decide_eq_true_eq, List.mem_cons, List.not_mem_nil, or_false, not_or] at hout
  refine CandInv_disc ?_ ht
  intro hcontra
  rw [← hdiv] at hcontra
  have := (cellAt_norep hnr hcjs hcontra (Or.inr (Or.inl rfl))).1
  omega

theorem CandInv_block1 {c : Grid} {s : CState} (hcomp : CompleteDigits c)
    (hnr : ¬ HasRepeat c) (h : CandInv c s) {n i : ℕ} (hn : 1 ≤ n ∧ n ≤ 9)
    (hi : i < 9) : CandInv c (block1 n i s) := by
  unfold block1
  dsimp only
  obtain ⟨js, hjs9, hcjs⟩ := exists_line hcomp hnr hi hn
  have hjsmem : n ∈ s.cand i js := by
    have hc2 : c ⟨i, hi⟩ ⟨js, hjs9⟩ = some n := by
      rw [← cellAt_lt (g := c) hi hjs9]
      exact hcjs
    exact h ⟨i, hi⟩ ⟨js, hjs9⟩ n hc2
  have hjsF : js ∈ (List.range 9).filter fun j => decide (n ∈ s.cand i j) :=
    List.mem_filter.2 ⟨List.mem_range.2 hjs9, by simpa using hjsmem⟩
  split
  · rename_i hcond
    have hFeq := length_one_headD hcond.1
    have hjseq : js =
        ((List.range 9).filter fun j => decide (n ∈ s.cand i j)).headD 0 := by
      rw [hFeq] at hjsF
      simpa using hjsF
    have hfacts := filter_headD_facts (p := fun j => decide (n ∈ s.cand i j))
      (by rw [hcond.1]; omega)
    exact CandInv_hsLine hnr h hi hfacts.1 (hjseq ▸ hcjs)
  · split
    · split
      · rename_i hout hlen hcard
        have hne2 : ((List.range 9).filter fun j => decide (n ∈ s.cand i j)) ≠ [] := by
          intro hc
          rw [hc] at hlen
          simp at hlen
        have hhead := headD_mem hne2 0
        have hheadlt : (((List.range 9).filter fun j =>
            decide (n ∈ s.cand i j)).headD 0) < 9 :=
          List.mem_range.1 (List.mem_filter.1 hhead).1
        have hfeq := map_toFinset_card_one hcard js hjsF _ hhead
        exact CandInv_lockedLine hnr h hi hjs9 hheadlt hcjs (by omega)
      · exact h
    · exact h

theorem CandInv_block2 {c : Grid} {s : CState} (hcomp : CompleteDigits c)
    (hnr : ¬ HasRepeat c) (h : CandInv c s) {n i : ℕ} (hn : 1 ≤ n ∧ n ≤ 9)
    (hi : i < 9) : CandInv c (block2 n i s) := by
  unfold block2
  dsimp only
  obtain ⟨js, hjs9, hcjs⟩ := exists_col hcomp hnr hi hn
  have hjsmem : n ∈ s.cand js i := by
    have hc2 : c ⟨js, hjs9⟩ ⟨i, hi⟩ = some n := by
      rw [← cellAt_lt (g := c) hjs9 hi]
      exact hcjs
    exact h ⟨js, hjs9⟩ ⟨i, hi⟩ n hc2
  have hjsF : js ∈ (List.range 9).filter fun j => decide (n ∈ s.cand j i) :=
    List.mem_filter.2 ⟨List.mem_range.2 hjs9, by simpa using hjsmem⟩
  split
  · rename_i hcond
    have hFeq := length_one_headD hcond.1
    have hjseq : js =
        ((List.range 9).filter fun j => decide (n ∈ s.cand j i)).headD 0 := by
      rw [hFeq] at hjsF
      simpa using hjsF
    have hfacts := filter_headD_facts (p := fun j => decide (n ∈ s.cand j i))
      (by rw [hcond.1]; omega)
    exact CandInv_hsCol hnr h hi hfacts.1 (hjseq ▸ hcjs)
  · split
    · split
      · rename_i hout hlen hcard
        have hne2 : ((List.range 9).filter fun j => decide (n ∈ s.cand j i)) ≠ [] := by
          intro hc
          rw [hc] at hlen
          simp at hlen
        have hhead := headD_mem hne2 0
        have hheadlt : (((List.range 9).filter fun j =>
            decide (n ∈ s.cand j i)).headD 0) < 9 :=
          List.mem_range.1 (List.mem_filter.1 hhead).1
        have hfeq := map_toFinset_card_one hcard js hjsF _ hhead
        exact CandInv_lockedCol hnr h hi hjs9 hheadlt hcjs (by omega)
      · exact h
    · exact h

theorem CandInv_block3 {c : Grid} {s : CState} (hcomp : CompleteDigits c)
    (hnr : ¬ HasRepeat c) (h : CandInv c s) {n i : ℕ} (hn : 1 ≤ n ∧ n ≤ 9)
    (hi : i < 9) : CandInv c (block3 n i s) := by
  unfold block3
  dsimp only
  obtain ⟨js, hjs9, hcjs⟩ := exists_box hcomp hnr hi hn
  have hL : 3 * (i / 3) + js / 3 < 9 := by omega
  have hR : 3 * (i % 3) + js % 3 < 9 := by omega
  have hjsmem : n ∈ s.cand (3 * (i / 3) + js / 3) (3 * (i % 3) + js % 3) := by
    have hc2 : c ⟨3 * (i / 3) + js / 3, hL⟩ ⟨3 * (i % 3) + js % 3, hR⟩ = some n := by
      rw [← cellAt_lt (g := c) hL hR]
      exact hcjs
    exact h _ _ n hc2
  have hjsF : js ∈ (List.range 9).filter fun j =>
      decide (n ∈ s.cand (3 * (i / 3) + j / 3) (3 * (i % 3) + j % 3)) :=
    List.mem_filter.2 ⟨List.mem_range.2 hjs9, by simpa using hjsmem⟩
  split
  · rename_i hcond
    have hFeq := length_one_headD hcond.1
    have hjseq : js = (((List.range 9).filter fun j =>
        decide (n ∈ s.cand (3 * (i / 3) + j / 3) (3 * (i % 3) + j % 3))).headD 0) := by
      rw [hFeq] at hjsF
      simpa using hjsF
    have hfacts := filter_headD_facts (p := fun j =>
      decide (n ∈ s.cand (3 * (i / 3) + j / 3) (3 * (i % 3) + j % 3)))
      (by rw [hcond.1]; omega)
    exact CandInv_hsBox hnr h hi hfacts.1 (hjseq ▸ hcjs)
  · have hne2 : (((List.range 9).filter fun j =>
        decide (n ∈ s.cand (3 * (i / 3) + j / 3) (3 * (i % 3) + j % 3)))) ≠ [] ∨ True :=
      Or.inr trivial
    split
    · rename_i hout hlen
      have hne3 : (((List.range 9).filter fun j =>
          decide (n ∈ s.cand (3 * (i / 3) + j / 3) (3 * (i % 3) + j % 3)))) ≠ [] := by
        intro hc
        rw [hc] at hlen
        simp at hlen
      have hhead := headD_mem hne3 0
      have hheadlt : ((((List.range 9).filter fun j =>
          decide (n ∈ s.cand (3 * (i / 3) + j / 3) (3 * (i % 3) + j % 3)))).headD 0) < 9 :=
        List.mem_range.1 (List.mem_filter.1 hhead).1
      split
      · rename_i hcard
        have hfeq := map_toFinset_card_one hcard js hjsF _ hhead
        exact CandInv_lockedBoxLine hnr h hi hjs9 hheadlt hcjs (by omega)
      · split
        · rename_i hcard1 hcard2
          have hfeq := map_toFinset_card_one hcard2 js hjsF _ hhead
          exact CandInv_lockedBoxCol hnr h hi hjs9 hheadlt hcjs (by omega)
        · exact h
    · exact h

theorem CandInv_apply {c : Grid} {s : CState} (h : CandInv c s) (l r : Fin 9)
    (v : ℕ) (hv : c l r = some v) : v ∈ s.cand l.val r.val := h l r v hv

attribute [irreducible] CandInv

theorem CandInv_foldl_inner {c : Grid} {n : ℕ} (hcomp : CompleteDigits c)
    (hnr : ¬ HasRepeat c) (hn : 1 ≤ n ∧ n ≤ 9) :
    ∀ (l : List ℕ), (∀ i ∈ l, i < 9) → ∀ s : CState, CandInv c s →
      CandInv c (l.foldl (fun u i => passUnit n i u) s)
  | [], _, _, hs => hs
  | i :: t, hl, s, hs => by
    rw [List.foldl_cons]
    refine CandInv_foldl_inner hcomp hnr hn t
      (fun j hj => hl j (List.mem_cons_of_mem _ hj)) _ ?_
    have hi : i < 9 := hl i (List.mem_cons_self _ _)
    unfold passUnit
    exact CandInv_block3 hcomp hnr
      (CandInv_block2 hcomp hnr (CandInv_block1 hcomp hnr hs hn hi) hn hi) hn hi

theorem CandInv_foldl_outer {c : Grid} (hcomp : CompleteDigits c)
    (hnr : ¬ HasRepeat c) :
    ∀ (l : List ℕ), (∀ n ∈ l, 1 ≤ n ∧ n ≤ 9) → ∀ s : CState, CandInv c s →
      CandInv c (l.foldl (fun t n => (List.range 9).foldl (fun u i => passUnit n i u) t) s)
  | [], _, _, hs => hs
  | n :: t, hl, s, hs => by
    rw [List.foldl_cons]
    refine CandInv_foldl_outer hcomp hnr t
      (fun m hm => hl m (List.mem_cons_of_mem _ hm)) _ ?_
    exact CandInv_foldl_inner hcomp hnr (hl n (List.mem_cons_self _ _)) (List.range 9)
      (fun i hi => List.mem_range.1 hi) s hs

theorem CandInv_passAll {c : Grid} {s : CState} (hcomp : CompleteDigits c)
    (hnr : ¬ HasRepeat c) (h : CandInv c s) : CandInv c (passAll s) :=
  CandInv_foldl_outer hcomp hnr (List.range' 1 9)
    (fun m hm => by rw [List.mem_range'_1] at hm; omega) s h

theorem CandInv_reduceLoop {c : Grid} {s : CState} (hcomp : CompleteDigits c)
    (hnr : ¬ HasRepeat c) (h : CandInv c s) :
    ∀ fuel : ℕ, CandInv c (reduceLoop fuel s)
  | 0 => h
  | fuel + 1 => by
    rw [reduceLoop]
    split
    · exact CandInv_reduceLoop hcomp hnr (CandInv_passAll hcomp hnr h) fuel
    · exact CandInv_passAll hcomp hnr h

/-- The candidate map never discards a digit that a valid completion of
the grid places in the cell. -/
theorem CandInv_candidateMapS {g c : Grid} (hext : ExtendsG g c)
    (hcomp : CompleteDigits c) (hnr : ¬ HasRepeat c) :
    CandInv c (candidateMapS g) :=
  CandInv_reduceLoop hcomp hnr (CandInv_phaseA hext hcomp hnr) 730

/-- The unfolding of candidateMapS, recorded before the definition is
made opaque to reduction. -/
theorem candidateMapS_eq (g : Grid) :
    candidateMapS g = reduceLoop 730 (phaseA g) := rfl

attribute [irreducible] candidateMapS

/-! ## The solver: restoration, success, soundness and completeness -/

theorem emptyCount_le (g : Grid) : emptyCount g ≤ 81 := by
  unfold emptyCount
  calc (Finset.univ.filter fun q : Fin 9 × Fin 9 => g q.1 q.2 = none).card
      ≤ (Finset.univ : Finset (Fin 9 × Fin 9)).card := Finset.card_filter_le _ _
    _ = 81 := by simp

theorem emptyCount_setCell {g : Grid} {l r v : ℕ} (h1 : l < 9) (h2 : r < 9)
    (he : cellAt g l r = none) :
    emptyCount (setCell g l r (some v)) < emptyCount g := by
  unfold emptyCount
  have hmem : (⟨⟨l, h1⟩, ⟨r, h2⟩⟩ : Fin 9 × Fin 9) ∈
      Finset.univ.filter fun q : Fin 9 × Fin 9 => g q.1 q.2 = none := by
    rw [Finset.mem_filter]
    rw [cellAt_lt h1 h2] at he
    exact ⟨Finset.mem_univ _, he⟩
  have hset : (Finset.univ.filter
        fun q : Fin 9 × Fin 9 => setCell g l r (some v) q.1 q.2 = none) =
      (Finset.univ.filter fun q : Fin 9 × Fin 9 => g q.1 q.2 = none).erase
        ⟨⟨l, h1⟩, ⟨r, h2⟩⟩ := by
    ext q
    rw [Finset.mem_filter, Finset.mem_erase, Finset.mem_filter]
    unfold setCell
    by_cases hq : q.1.val = l ∧ q.2.val = r
    · rw [if_pos hq]
      have hq1 : q = ⟨⟨l, h1⟩, ⟨r, h2⟩⟩ := by
        obtain ⟨a, b⟩ := q
        simp only [Prod.mk.injEq]
        exact ⟨Fin.ext hq.1, Fin.ext hq.2⟩
      simp [hq1]
    · rw [if_neg hq]
      have hq2 : q ≠ ⟨⟨l, h1⟩, ⟨r, h2⟩⟩ := by
        intro hc
        rw [hc] at hq
        exact hq ⟨rfl, rfl⟩
      simp [hq2]
  rw [hset]
  exact Finset.card_erase_lt_of_mem hmem

theorem WF_setCell {g : Grid} {l r v : ℕ} (hwf : WFgrid g) (hv : 1 ≤ v ∧ v ≤ 9) :
    WFgrid (setCell g l r (some v)) := by
  intro a b
  unfold setCell
  by_cases hq : a.val = l ∧ b.val = r
  · rw [if_pos hq]
    simp [cellOK, hv.1, hv.2]
  · rw [if_neg hq]
    exact hwf a b

theorem HasRepeat_mono {g c : Grid} (hext : ExtendsG g c) (h : HasRepeat g) :
    HasRepeat c := by
  obtain ⟨p, q, hne, hsu, v, hp, hq⟩ := h
  exact ⟨p, q, hne, hsu, v, hext _ _ _ hp, hext _ _ _ hq⟩

theorem ExtendsG_of_setCell {g c : Grid} {l r v : ℕ} (h1 : l < 9) (h2 : r < 9)
    (he : cellAt g l r = none)
    (hext : ExtendsG (setCell g l r (some v)) c) : ExtendsG g c := by
  intro a b w hw
  by_cases hq : a.val = l ∧ b.val = r
  · rw [cellAt_lt h1 h2] at he
    have ha : a = ⟨l, h1⟩ := Fin.ext hq.1
    have hb : b = ⟨r, h2⟩ := Fin.ext hq.2
    rw [ha, hb, he] at hw
    exact absurd hw (by simp)
  · refine hext a b w ?_
    unfold setCell
    rw [if_neg hq]
    exact hw

theorem ExtendsG_setCell_of {g c : Grid} {l r v : ℕ} (hext : ExtendsG g c)
    (hc : ∀ (hl : l < 9) (hr : r < 9), c ⟨l, hl⟩ ⟨r, hr⟩ = some v) :
    ExtendsG (setCell g l r (some v)) c := by
  intro a b w hw
  unfold setCell at hw
  by_cases hq : a.val = l ∧ b.val = r
  · rw [if_pos hq] at hw
    obtain rfl : v = w := Option.some.inj hw
    obtain ⟨av, halt⟩ := a
    obtain ⟨bv, hblt⟩ := b
    have h1 : av = l := hq.1
    have h2 : bv = r := hq.2
    subst h1
    subst h2
    exact hc halt hblt
  · rw [if_neg hq] at hw
    exact hext a b w hw

theorem guessLoop_snd {f : Grid → Except Err (List Grid × Grid)} {l r : ℕ}
    (hf : ∀ g' s g2, f g' = .ok (s, g2) → g2 = g') :
    ∀ (vs : List ℕ) (sols : List Grid) (g : Grid) (s : List Grid) (gOut : Grid),
      guessLoop f l r vs sols g = .ok (s, gOut) →
      setCell gOut l r none = setCell g l r none := by
  intro vs
  induction vs with
  | nil =>
    intro sols g s gOut h
    simp only [guessLoop, Except.ok.injEq, Prod.mk.injEq] at h
    rw [← h.2]
  | cons v vs ih =>
    intro sols g s gOut h
    simp only [guessLoop] at h
    cases hf2 : f (setCell g l r (some v)) with
    | error e =>
      rw [hf2] at h
      exact absurd h (by simp)
    | ok out =>
      obtain ⟨s2, g2⟩ := out
      rw [hf2] at h
      have hg2 : g2 = setCell g l r (some v) := hf _ _ _ hf2
      have := ih (sols ++ s2) g2 s gOut h
      rw [this, hg2, setCell_setCell]

theorem solveAux_snd :
    ∀ (fuel : ℕ) (g : Grid) (sols : List Grid) (g2 : Grid),
      solveAux fuel g = .ok (sols, g2) → g2 = g := by
  intro fuel
  induction fuel with
  | zero =>
    intro g sols g2 h
    simp only [solveAux, Except.ok.injEq, Prod.mk.injEq] at h
    rw [← h.2]
  | succ fuel ih =>
    intro g sols g2 h
    rw [solveAux] at h
    unfold solveStep at h
    split at h
    · exact absurd h (by simp)
    · simp only [Except.ok.injEq, Prod.mk.injEq] at h
      rw [← h.2]
    · split at h
      · rename_i p hfind
        split at h
        · exact absurd h (by simp)
        · rename_i sl gl hgl
          simp only [Except.ok.injEq, Prod.mk.injEq] at h
          have hmem := List.mem_of_find?_eq_some hfind
          have hpred := List.find?_some hfind
          obtain ⟨hp1, hp2⟩ := mem_cells81.1 hmem
          have hnone : cellAt g p.1 p.2 = none := by
            rw [Bool.and_eq_true] at hpred
            exact Option.isNone_iff_eq_none.1 hpred.1
          have hrest := guessLoop_snd (fun g' s gg hh => ih g' s gg hh)
            _ _ _ _ _ hgl
          rw [← h.2, hrest, setCell_none_of_none hnone hp1 hp2]
      · split at h
        · exact absurd h (by simp)
        · split at h
          · exact absurd h (by simp)
          · simp only [Except.ok.injEq, Prod.mk.injEq] at h
            rw [← h.2]

theorem guessLoop_eq {f : Grid → Except Err (List Grid × Grid)} {l r : ℕ}
    (hf : ∀ g' s g2, f g' = .ok (s, g2) → g2 = g') :
    ∀ (vs : List ℕ) (sols : List Grid) (g : Grid),
      (∀ v ∈ vs, ∃ out, f (setCell g l r (some v)) = .ok out) →
      ∃ res g2, guessLoop f l r vs sols g = .ok (res, g2) ∧
        ∀ c, c ∈ res ↔ (c ∈ sols ∨ ∃ v ∈ vs, c ∈ solsOf f g l r v) := by
  intro vs
  induction vs with
  | nil =>
    intro sols g _
    refine ⟨sols, g, by simp [guessLoop], ?_⟩
    intro c
    simp
  | cons v vs ih =>
    intro sols g hvs
    obtain ⟨out, hout⟩ := hvs v (List.mem_cons_self _ _)
    obtain ⟨s2, g2⟩ := out
    have hg2 : g2 = setCell g l r (some v) := hf _ _ _ hout
    have hnext : ∀ w ∈ vs, ∃ out, f (setCell g2 l r (some w)) = .ok out := by
      intro w hw
      rw [hg2, setCell_setCell]
      exact hvs w (List.mem_cons_of_mem _ hw)
    obtain ⟨res, gf, heqr, hmemr⟩ := ih (sols ++ s2) g2 hnext
    have hs2 : solsOf f g l r v = s2 := by
      unfold solsOf
      rw [hout]
    have hEq : ∀ w, solsOf f g2 l r w = solsOf f g l r w := by
      intro w
      unfold solsOf
      rw [hg2, setCell_setCell]
    refine ⟨res, gf, ?_, ?_⟩
    · simp only [guessLoop, hout]
      exact heqr
    · intro c
      rw [hmemr c, List.mem_append]
      constructor
      · rintro ((hs | h2) | ⟨w, hw, hcw⟩)
        · exact Or.inl hs
        · exact Or.inr ⟨v, List.mem_cons_self _ _, by rwa [hs2]⟩
        · exact Or.inr ⟨w, List.mem_cons_of_mem _ hw, by rwa [hEq w] at hcw⟩
      · rintro (hs | ⟨w, hw, hcw⟩)
        · exact Or.inl (Or.inl hs)
        · rcases List.mem_cons.1 hw with rfl | hw2
          · exact Or.inl (Or.inr (by rwa [hs2] at hcw))
          · exact Or.inr ⟨w, hw2, by rwa [← hEq w] at hcw⟩

theorem foldl_min_cases : ∀ (l : List ℕ) (a : ℕ),
    l.foldl min a = a ∨ l.foldl min a ∈ l := by
  intro l
  induction l with
  | nil => intro a; exact Or.inl rfl
  | cons x xs ih =>
    intro a
    rw [List.foldl_cons]
    rcases ih (min a x) with h | h
    · rw [h]
      rcases Nat.le_total a x with hax | hax
      · rw [Nat.min_eq_left hax]
        exact Or.inl rfl
      · rw [Nat.min_eq_right hax]
        exact Or.inr (List.mem_cons_self _ _)
    · exact Or.inr (List.mem_cons_of_mem _ h)

theorem foldl_min_mem {l : List ℕ} (hne : l ≠ []) (hb : ∀ x ∈ l, x ≤ 9) :
    l.foldl min 9 ∈ l := by
  obtain ⟨x, xs, rfl⟩ := List.exists_cons_of_ne_nil hne
  rw [List.foldl_cons, Nat.min_eq_right (hb x (List.mem_cons_self _ _))]
  rcases foldl_min_cases xs x with h | h
  · rw [h]
    exact List.mem_cons_self _ _
  · exact List.mem_cons_of_mem _ h

theorem no_empty_of_find_none {g : Grid}
    (h : (cells81.find? fun p =>
      (cellAt g p.1 p.2).isNone &&
      (((candidateMapS g).cand p.1 p.2).card ==
        minCandSize g (candidateMapS g).cand)) = none) :
    ∀ p ∈ cells81, cellAt g p.1 p.2 ≠ none := by
  intro p hp hnone
  have hL : ((candidateMapS g).cand p.1 p.2).card ∈
      cells81.filterMap fun q =>
        if cellAt g q.1 q.2 = none then some ((candidateMapS g).cand q.1 q.2).card
        else none := by
    rw [List.mem_filterMap]
    exact ⟨p, hp, by rw [if_pos hnone]⟩
  have hb : ∀ x ∈ cells81.filterMap fun q =>
      if cellAt g q.1 q.2 = none then some ((candidateMapS g).cand q.1 q.2).card
      else none, x ≤ 9 := by
    intro x hx
    rw [List.mem_filterMap] at hx
    obtain ⟨q, _, hq⟩ := hx
    by_cases hqn : cellAt g q.1 q.2 = none
    · rw [if_pos hqn] at hq
      have hsub := Finset.card_le_card (SubIcc_candidateMapS g q.1 q.2)
      rw [← Option.some.inj hq]
      simpa using hsub
    · rw [if_neg hqn] at hq
      exact absurd hq (by simp)
  have hmin : minCandSize g (candidateMapS g).cand ∈
      cells81.filterMap fun q =>
        if cellAt g q.1 q.2 = none then some ((candidateMapS g).cand q.1 q.2).card
        else none :=
    foldl_min_mem (List.ne_nil_of_mem hL) hb
  rw [List.mem_filterMap] at hmin
  obtain ⟨q, hqmem, hq⟩ := hmin
  by_cases hqn : cellAt g q.1 q.2 = none
  · rw [if_pos hqn] at hq
    have hqcard : ((candidateMapS g).cand q.1 q.2).card =
        minCandSize g (candidateMapS g).cand := Option.some.inj hq
    have := (List.find?_eq_none.1 h) q hqmem
    rw [Bool.and_eq_true] at this
    push_neg at this
    refine absurd ?_ (this (Option.isNone_iff_eq_none.2 hqn))
    rw [beq_iff_eq]
    exact hqcard
  · rw [if_neg hqn] at hq
    exact absurd hq (by simp)

theorem solveAux_ok :
    ∀ (fuel : ℕ) (g : Grid), WFgrid g → ∃ out, solveAux fuel g = .ok out := by
  intro fuel
  induction fuel with
  | zero =>
    intro g _
    exact ⟨([], g), rfl⟩
  | succ fuel ih =>
    intro g hwf
    rw [solveAux]
    unfold solveStep
    rw [valid_eq_decide hwf]
    by_cases hnr : HasRepeat g
    · rw [show (decide (¬ HasRepeat g)) = false by simp [hnr]]
      exact ⟨([], g), rfl⟩
    · rw [show (decide (¬ HasRepeat g)) = true by simp [hnr]]
      cases hfind : (cells81.find? fun p =>
          (cellAt g p.1 p.2).isNone &&
          (((candidateMapS g).cand p.1 p.2).card ==
            minCandSize g (candidateMapS g).cand)) with
      | none =>
        dsimp only
        rw [strOfGrid_eq hwf]
        dsimp only
        rw [parse_serChars hwf]
        exact ⟨([g], g), rfl⟩
      | some p =>
        dsimp only
        have hok : ∀ v ∈ ((candidateMapS g).cand p.1 p.2).sort (· ≤ ·),
            ∃ out, solveAux fuel (setCell g p.1 p.2 (some v)) = .ok out := by
          intro v hv
          have hsub := SubIcc_candidateMapS g p.1 p.2
          revert hv
          generalize (candidateMapS g).cand p.1 p.2 = S at hsub
          intro hv
          have hvm : v ∈ S := (Finset.mem_sort _).1 hv
          have hicc : v ∈ Finset.Icc 1 9 := hsub hvm
          exact ih _ (WF_setCell hwf (Finset.mem_Icc.1 hicc))
        obtain ⟨res, gf, heq, -⟩ := guessLoop_eq
          (fun a b d hh => solveAux_snd fuel a b d hh) _ [] g hok
        rw [heq]
        exact ⟨_, rfl⟩

theorem mem_sort_bounds {g : Grid} {a b v : ℕ}
    (hv : v ∈ ((candidateMapS g).cand a b).sort (· ≤ ·)) : 1 ≤ v ∧ v ≤ 9 := by
  have hsub := SubIcc_candidateMapS g a b
  revert hv
  generalize (candidateMapS g).cand a b = S at hsub
  intro hv
  have hvm : v ∈ S := (Finset.mem_sort _).1 hv
  simpa using hsub hvm

theorem mem_sort_of_mem {g : Grid} {a b v : ℕ}
    (hv : v ∈ (candidateMapS g).cand a b) :
    v ∈ ((candidateMapS g).cand a b).sort (· ≤ ·) := by
  revert hv
  generalize (candidateMapS g).cand a b = S
  intro hv
  exact (Finset.mem_sort _).2 hv

theorem solveAux_mem :
    ∀ (fuel : ℕ) (g : Grid), WFgrid g → emptyCount g < fuel →
      ∀ (sols : List Grid) (g2 : Grid), solveAux fuel g = .ok (sols, g2) →
      ∀ c, c ∈ sols ↔ (ExtendsG g c ∧ CompleteDigits c ∧ ¬ HasRepeat c) := by
  intro fuel
  induction fuel with
  | zero =>
    intro g _ hlt
    exact absurd hlt (Nat.not_lt_zero _)
  | succ fuel ih =>
    intro g hwf hlt sols g2 h c
    rw [solveAux] at h
    unfold solveStep at h
    split at h
    · exact absurd h (by simp)
    · rename_i hvf
      have hrep : HasRepeat g := (valid_ok_false_iff.1 hvf).2
      simp only [Except.ok.injEq, Prod.mk.injEq] at h
      rw [← h.1]
      simp only [List.not_mem_nil, false_iff]
      rintro ⟨hext, -, hnrc⟩
      exact hnrc (HasRepeat_mono hext hrep)
    · rename_i hvt
      have hnr : ¬ HasRepeat g := (valid_ok_true_iff.1 hvt).2
      split at h
      · rename_i p hfind
        have hmem := List.mem_of_find?_eq_some hfind
        have hpred := List.find?_some hfind
        obtain ⟨hp1, hp2⟩ := mem_cells81.1 hmem
        rw [Bool.and_eq_true] at hpred
        have hnone : cellAt g p.1 p.2 = none := Option.isNone_iff_eq_none.1 hpred.1
        split at h
        · exact absurd h (by simp)
        · rename_i sl gl hgl
          simp only [Except.ok.injEq, Prod.mk.injEq] at h
          have hok : ∀ v ∈ ((candidateMapS g).cand p.1 p.2).sort (· ≤ ·),
              ∃ out, solveAux fuel (setCell g p.1 p.2 (some v)) = .ok out :=
            fun v hv => solveAux_ok fuel _ (WF_setCell hwf (mem_sort_bounds hv))
          obtain ⟨res, gf, heq, hmem⟩ := guessLoop_eq
            (fun a b d hh => solveAux_snd fuel a b d hh) _ [] g hok
          rw [heq] at hgl
          simp only [Except.ok.injEq, Prod.mk.injEq] at hgl
          rw [← h.1, ← hgl.1, hmem c]
          simp only [List.not_mem_nil, false_or]
          constructor
          · intro hc
            obtain ⟨v, hvmem, hclc⟩ := hc
            obtain ⟨out, hout⟩ := hok v hvmem
            obtain ⟨sv, gv⟩ := out
            have hsols : solsOf (solveAux fuel) g p.1 p.2 v = sv := by
              unfold solsOf
              rw [hout]
            rw [hsols] at hclc
            have hv9 := mem_sort_bounds hvmem
            have hless := emptyCount_setCell (v := v) hp1 hp2 hnone
            have hiff := ih (setCell g p.1 p.2 (some v)) (WF_setCell hwf hv9)
              (by omega) sv gv hout c
            obtain ⟨hext, hcomp, hnrc⟩ := hiff.1 hclc
            exact ⟨ExtendsG_of_setCell hp1 hp2 hnone hext, hcomp, hnrc⟩
          · rintro ⟨hext, hcomp, hnrc⟩
            obtain ⟨w, hw, hw9⟩ := hcomp ⟨p.1, hp1⟩ ⟨p.2, hp2⟩
            have hwin : w ∈ (candidateMapS g).cand p.1 p.2 :=
              CandInv_apply (CandInv_candidateMapS hext hcomp hnrc)
                ⟨p.1, hp1⟩ ⟨p.2, hp2⟩ w hw
            have hwmem := mem_sort_of_mem hwin
            obtain ⟨out, hout⟩ := hok w hwmem
            obtain ⟨sw, gw⟩ := out
            refine ⟨w, hwmem, ?_⟩
            have hsols : solsOf (solveAux fuel) g p.1 p.2 w = sw := by
              unfold solsOf
              rw [hout]
            rw [hsols]
            have hextw : ExtendsG (setCell g p.1 p.2 (some w)) c :=
              ExtendsG_setCell_of hext (fun hl hr => hw)
            have hless := emptyCount_setCell (v := w) hp1 hp2 hnone
            have hiff := ih (setCell g p.1 p.2 (some w)) (WF_setCell hwf hw9)
              (by omega) sw gw hout c
            exact hiff.2 ⟨hextw, hcomp, hnrc⟩
      · rename_i hfindn
        have hnoe := no_empty_of_find_none hfindn
        have hcompg : CompleteDigits g := by
          intro a b
          have hmm : ((a.val, b.val) : ℕ × ℕ) ∈ cells81 :=
            mem_cells81.2 ⟨a.isLt, b.isLt⟩
          have hne := hnoe _ hmm
          rw [cellAt_fin] at hne
          cases hgab : g a b with
          | none => exact absurd hgab hne
          | some v =>
            have hco := hwf a b
            rw [hgab] at hco
            simp only [cellOK, Bool.and_eq_true, decide_eq_true_eq] at hco
            exact ⟨v, rfl, hco.1, hco.2⟩
        split at h
        · rename_i e herr
          rw [strOfGrid_eq hwf] at herr
          exact absurd herr (by simp)
        · rename_i sChars hs
          rw [strOfGrid_eq hwf] at hs
          have hsc : serChars g = sChars := by
            simpa using hs
          subst hsc
          split at h
          · rename_i e herr
            rw [parse_serChars hwf] at herr
            exact absurd herr (by simp)
          · rename_i gcopy hg
            rw [parse_serChars hwf] at hg
            have hgc : g = gcopy := by
              simpa using hg
            subst hgc
            simp only [Except.ok.injEq, Prod.mk.injEq] at h
            rw [← h.1]
            simp only [List.mem_singleton]
            constructor
            · rintro rfl
              exact ⟨fun l r v hv => hv, hcompg, hnr⟩
            · rintro ⟨hext, -, -⟩
              funext a b
              obtain ⟨v, hv, -⟩ := hcompg a b
              rw [hv]
              exact hext a b v hv

/-! ## The claims -/

/-- C1: for every grid that passes the validity check, solve_puzzle
returns without error, and the returned solutions are exactly the
complete digit grids that agree with the input on every resolved cell
and contain no repeated digit in any line, row or box. -/
theorem claim_C1 (g : Grid) (hv : valid g = .ok true) :
    ∃ sols, solvePuzzle g = .ok sols ∧
      ∀ c, c ∈ sols ↔ (ExtendsG g c ∧ CompleteDigits c ∧ ¬ HasRepeat c) := by
  have hwf := (valid_ok_true_iff.1 hv).1
  obtain ⟨out, hout⟩ := solveAux_ok 82 g hwf
  obtain ⟨sols, g2⟩ := out
  refine ⟨sols, ?_, ?_⟩
  · unfold solvePuzzle
    rw [hout]
    rfl
  · exact fun c =>
      solveAux_mem 82 g hwf (by have := emptyCount_le g; omega) sols g2 hout c

/-- Witness for C1 at the empty grid. -/
theorem claim_C1_witness :
    valid emptyGrid = .ok true ∧
    ∃ sols, solvePuzzle emptyGrid = .ok sols ∧
      ∀ c, c ∈ sols ↔ (ExtendsG emptyGrid c ∧ CompleteDigits c ∧ ¬ HasRepeat c) :=
  ⟨by decide, claim_C1 emptyGrid (by decide)⟩

/-- C2: the candidate map never discards a digit that some complete
repeat-free extension of the grid places in the cell. -/
theorem claim_C2 {g c : Grid} (hext : ExtendsG g c) (hcomp : CompleteDigits c)
    (hnr : ¬ HasRepeat c) (l r : Fin 9) (v : ℕ) (hv : c l r = some v) :
    v ∈ (candidateMapS g).cand l.val r.val :=
  CandInv_apply (CandInv_candidateMapS hext hcomp hnr) l r v hv

set_option maxRecDepth 100000 in
set_option maxHeartbeats 2000000 in
/-- Witness for C2: the pattern grid completes the empty grid. -/
theorem claim_C2_witness :
    ExtendsG emptyGrid patGrid ∧ CompleteDigits patGrid ∧ ¬ HasRepeat patGrid ∧
    patGrid 0 0 = some 1 ∧
    1 ∈ (candidateMapS emptyGrid).cand (0 : Fin 9).val (0 : Fin 9).val :=
  ⟨by decide, by decide, by decide, by decide,
   claim_C2 (g := emptyGrid) (c := patGrid) (by decide) (by decide) (by decide)
     0 0 1 (by decide)⟩

set_option maxRecDepth 100000 in
set_option maxHeartbeats 2000000 in
/-- C3 counterexample: parse accepts the empty string, but serializing
the parsed grid yields 81 dots, not the empty string; and parse accepts
81 Arabic-Indic digit fives, which serialize to 81 ASCII fives, not the
input, so the round trip fails on accepted inputs. -/
theorem claim_C3_counterexample :
    (sudokuOfString [] = .ok emptyGrid ∧ strOfGrid emptyGrid ≠ .ok []) ∧
    sudokuOfString (List.replicate 81 '٥') = .ok fivesGrid ∧
    strOfGrid fivesGrid ≠ .ok (List.replicate 81 '٥') :=
  ⟨⟨rfl, by decide⟩, by decide, by decide⟩

/-- C3 (amended): for accepted strings of length 81 built from the dot
and the ASCII digits 1 to 9, serializing the parsed grid returns the
original string. -/
theorem claim_C3 {s : List Char} {g : Grid} (hlen : s.length = 81)
    (hascii : ∀ ch ∈ s, ch = '.' ∨ ('1' ≤ ch ∧ ch ≤ '9'))
    (hok : sudokuOfString s = .ok g) : strOfGrid g = .ok s :=
  roundtrip_aux hlen hascii hok

/-- Witness for C3 at the string of 81 dots. -/
theorem claim_C3_witness :
    (List.replicate 81 ('.' : Char)).length = 81 ∧
    (∀ ch ∈ List.replicate 81 ('.' : Char),
      ch = '.' ∨ ('1' ≤ ch ∧ ch ≤ '9')) ∧
    sudokuOfString (List.replicate 81 ('.' : Char)) = .ok emptyGrid ∧
    strOfGrid emptyGrid = .ok (List.replicate 81 ('.' : Char)) :=
  ⟨by decide, by decide, by decide, claim_C3 (by decide) (by decide) (by decide)⟩

set_option maxRecDepth 100000 in
set_option maxHeartbeats 2000000 in
/-- C4 counterexample: the empty string has length other than 81 yet
parse accepts it; an 81-character string of letters fails with the
builtin ValueError raised by int(), not with GridStringError; and a
string of 81 Arabic-Indic digit fives contains no character of the dot
and ASCII digit alphabet yet parse accepts it. -/
theorem claim_C4_counterexample :
    sudokuOfString [] = .ok emptyGrid ∧
    sudokuOfString (List.replicate 81 'a') = .error .valueError ∧
    sudokuOfString (List.replicate 81 '٥') = .ok fivesGrid :=
  ⟨rfl, by decide, by decide⟩

/-- C4 (amended): a nonempty string whose length is not 81 fails with
GridStringError; an 81-character string containing a bad character, one
that is neither the dot nor a decimal digit of value 1 to 9, fails,
with GridStringError when the first bad character is a digit of value
outside 1 to 9 and with the builtin ValueError of int() when it is not
a digit at all; the empty string is accepted. -/
theorem claim_C4 (s : List Char) :
    (s ≠ [] → s.length ≠ 81 → sudokuOfString s = .error .gridStringError) ∧
    (s.length = 81 → (∃ ch ∈ s, goodChar ch = false) →
      ∃ e, sudokuOfString s = .error e ∧
        (e = .gridStringError ∨ e = .valueError)) := by
  constructor
  · intro hne hlen
    unfold sudokuOfString
    rw [if_neg hne, if_pos hlen]
  · rintro hlen ⟨ch, hch, hbad⟩
    have hne : s ≠ [] := by
      intro h
      rw [h] at hlen
      simp at hlen
    unfold sudokuOfString
    rw [if_neg hne, if_neg (by rw [hlen]; omega)]
    apply storeChars_error_of_bad
    obtain ⟨i, hi, rfl⟩ := List.mem_iff_getElem.1 hch
    have hiz : i < (cells81.zip s).length := by
      rw [List.length_zip, cells81_length, hlen]
      omega
    refine ⟨(cells81.zip s)[i], List.getElem_mem hiz, ?_⟩
    rw [List.getElem_zip]
    exact hbad

/-- Witness for C4 at a short string and at 81 letters. -/
theorem claim_C4_witness :
    sudokuOfString ['1'] = .error .gridStringError ∧
    ∃ e, sudokuOfString (List.replicate 81 'a') = .error e ∧
      (e = .gridStringError ∨ e = .valueError) :=
  ⟨(claim_C4 ['1']).1 (by decide) (by decide),
   (claim_C4 (List.replicate 81 'a')).2 (by decide) ⟨'a', by decide, by decide⟩⟩

/-- C5: on well-formed grids the validity check returns false exactly
when some line, row or box repeats a resolved value, and true exactly
when no such repeat exists. -/
theorem claim_C5 (g : Grid) (hwf : WFgrid g) :
    (valid g = .ok false ↔ HasRepeat g) ∧
    (valid g = .ok true ↔ ¬ HasRepeat g) := by
  refine ⟨⟨fun h => (valid_ok_false_iff.1 h).2, fun h => valid_ok_false_iff.2 ⟨hwf, h⟩⟩,
    ⟨fun h => (valid_ok_true_iff.1 h).2, fun h => valid_ok_true_iff.2 ⟨hwf, h⟩⟩⟩

/-- Witness for C5 at a grid with a repeat in line 0. -/
theorem claim_C5_witness :
    WFgrid badGrid ∧
    ((valid badGrid = .ok false ↔ HasRepeat badGrid) ∧
     (valid badGrid = .ok true ↔ ¬ HasRepeat badGrid)) :=
  ⟨by decide, claim_C5 badGrid (by decide)⟩

/-- C6: the grid threaded through the solver comes back unchanged: when
solveAux succeeds, its returned grid is the input grid, so every
temporary assignment is undone. -/
theorem claim_C6 (g : Grid) (fuel : ℕ) :
    (solveAux fuel g).map Prod.snd = (solveAux fuel g).map fun _ => g := by
  cases h : solveAux fuel g with
  | error e => rfl
  | ok out =>
    obtain ⟨sols, g2⟩ := out
    have hsnd := solveAux_snd fuel g sols g2 h
    simp [Except.map, hsnd]

/-- C7: on a grid the validity check rejects, the solver returns the
empty solution list at once, with the branch that never reaches the
candidate map or the search. -/
theorem claim_C7 (g : Grid) (hv : valid g = .ok false) :
    (∀ fuel, solveAux (fuel + 1) g = .ok ([], g)) ∧ solvePuzzle g = .ok [] := by
  have hstep : ∀ f, solveStep f g = .ok ([], g) := by
    intro f
    unfold solveStep
    rw [hv]
  constructor
  · intro fuel
    rw [solveAux]
    exact hstep _
  · unfold solvePuzzle
    have h82 : solveAux 82 g = .ok ([], g) := by
      rw [show (82 : ℕ) = 81 + 1 by rfl, solveAux]
      exact hstep _
    rw [h82]
    rfl

/-- Witness for C7 at the grid with two 5s in line 0. -/
theorem claim_C7_witness :
    valid badGrid = .ok false ∧
    ((∀ fuel, solveAux (fuel + 1) badGrid = .ok ([], badGrid)) ∧
      solvePuzzle badGrid = .ok []) :=
  ⟨by decide, claim_C7 badGrid (by decide)⟩

/-- C8: the reduction loop terminates: the total candidate count after
the initial elimination is at most 729, and since every continuing pass
strictly decreases the count, 730 passes suffice: extra fuel never
changes the result of the loop. -/
theorem claim_C8 (g : Grid) (extra : ℕ) :
    totalCount (phaseA g) ≤ 729 ∧
    reduceLoop (730 + extra) (phaseA g) = candidateMapS g := by
  refine ⟨totalCount_le (SubIcc_phaseA g), ?_⟩
  rw [candidateMapS_eq]
  exact reduceLoop_add_stable
    (by have := totalCount_le (SubIcc_phaseA g); omega) extra

/-- C9: in the candidate map of a grid the validity check accepts, a
resolved value is absent from the candidate set of every other cell
sharing a line, row or box with it. -/
theorem claim_C9 (g : Grid) (hv : valid g = .ok true) (p q : Fin 9 × Fin 9)
    (hne : p ≠ q) (hsu : SameUnit p q) (v : ℕ) (hpv : g p.1 p.2 = some v) :
    v ∉ (candidateMapS g).cand q.1.val q.2.val :=
  PeerElim_candidateMapS hv p v hpv q hsu (fun h => hne h.symm)

/-- Witness for C9 at a one-cell grid and its line neighbour. -/
theorem claim_C9_witness :
    valid oneGrid = .ok true ∧
    ((0, 0) : Fin 9 × Fin 9) ≠ (0, 1) ∧
    SameUnit ((0, 0) : Fin 9 × Fin 9) (0, 1) ∧
    oneGrid 0 0 = some 5 ∧
    5 ∉ (candidateMapS oneGrid).cand (0 : Fin 9).val (1 : Fin 9).val :=
  ⟨by decide, by decide, by decide, by decide,
   claim_C9 oneGrid (by decide) (0, 0) (0, 1) (by decide) (by decide) 5 (by decide)⟩

/-- C10: computing the candidate map leaves the grid unchanged: the
grid carried by the returned candidate state is the input grid. -/
theorem claim_C10 (g : Grid) : (candidateMapS g).grid = g :=
  grid_candidateMapS g
